import Mathlib

/-!
# Verification of the SODA stencil scheduling core

Shallow embedding of the scheduling and dataflow-synthesis core found in
`src/soda/generator/utils.py`, together with theorems settling the frozen
claims about it.  Python integers are modelled as `Int` (`%` on a positive
divisor is `Int.emod`, `//` is `Int.fdiv`), Python lists as `List`, Python
sets as `Finset`, and Python dicts as insertion-ordered association lists.
Fallible operations (IndexError / ValueError) are modelled with `Option`.
-/

/-- Association-list lookup, mirroring Python dict lookup (first match). -/
def alookup {α β : Type} [DecidableEq α] : List (α × β) → α → Option β
  | [], _ => none
  | (k, v) :: t, a => if k = a then some v else alookup t a

/-- Python dict assignment `d[k] = v`: update in place if the key exists,
append at the end otherwise (insertion order is preserved). -/
def dictInsert {α β : Type} [DecidableEq α] : List (α × β) → α → β → List (α × β)
  | [], k, v => [(k, v)]
  | (k', v') :: t, k, v => if k' = k then (k, v) :: t else (k', v') :: dictInsert t k v

/-- `reduce(operator.mul, l)` for nonempty `l`; with seed 1 it agrees. -/
def prodInts (l : List Int) : Int := l.foldl (· * ·) 1

/-- Python `max(l)` for a nonempty list `l`. -/
def listMax (l : List Int) : Int := l.foldl max (l.headD 0)

/-- `Serialize(vec, tile_size)` from `utils.py`:
`sum((vec[i]*reduce(operator.mul, tile_size[:i]) for i in range(1, len(tile_size))), next(iter(vec)))`. -/
def Serialize (vec tile_size : List Int) : Int :=
  (List.range' 1 (tile_size.length - 1)).foldl
    (fun acc i => acc + vec.getD i 0 * prodInts (tile_size.take i)) (vec.headD 0)

/-- `SerializeIterative(iterative, tile_size)` from `utils.py`. -/
def SerializeIterative (iterative : List (List Int)) (tile_size : List Int) : List Int :=
  iterative.map (fun x => Serialize x tile_size)

theorem prodInts_eq_prod (l : List Int) : prodInts l = l.prod := by
  rw [prodInts, List.prod_eq_foldl]

theorem foldl_add_map (f : Nat → Int) (l : List Nat) (a : Int) :
    l.foldl (fun acc i => acc + f i) a = a + (l.map f).sum := by
  induction l generalizing a with
  | nil => simp
  | cons h t ih => simp [ih, add_assoc]

theorem sum_map_range (f : Nat → Int) (n : Nat) :
    ((List.range n).map f).sum = ∑ i ∈ Finset.range n, f i := by
  induction n with
  | zero => simp
  | succ n ih => rw [List.range_succ]; simp [ih, Finset.sum_range_succ]

theorem prodInts_take (T : List Int) (i : Nat) (h : i ≤ T.length) :
    prodInts (T.take i) = ∏ j ∈ Finset.range i, T.getD j 0 := by
  induction i with
  | zero => simp [prodInts]
  | succ i ih =>
    have hi : i < T.length := Nat.lt_of_succ_le h
    rw [List.take_succ, prodInts_eq_prod, List.prod_append, ← prodInts_eq_prod,
      ih (Nat.le_of_lt hi), List.getElem?_eq_getElem hi, Finset.prod_range_succ]
    simp [List.getD_eq_getElem?_getD, List.getElem?_eq_getElem hi]

theorem Serialize_eq_sum (v T : List Int) :
    Serialize v T
      = v.headD 0 + ∑ i ∈ Finset.Ico 1 T.length, v.getD i 0 * prodInts (T.take i) := by
  rw [Serialize, foldl_add_map, List.range'_eq_map_range, List.map_map, sum_map_range,
    Finset.sum_Ico_eq_sum_range]
  simp [Function.comp]

theorem headD_eq_getD_zero (v : List Int) : v.headD 0 = v.getD 0 0 := by
  cases v <;> rfl

/-- The serialization formula of the spec, as a statement about `Serialize`. -/
theorem Serialize_formula (v T : List Int) :
    Serialize v T
      = v.headD 0
        + ∑ i ∈ Finset.Ico 1 T.length, v.getD i 0 * ∏ j ∈ Finset.range i, T.getD j 0 := by
  rw [Serialize_eq_sum]
  congr 1
  refine Finset.sum_congr rfl (fun i hi => ?_)
  rw [prodInts_take T i (le_of_lt (Finset.mem_Ico.mp hi).2)]

theorem replicate_getD (n i : Nat) : (List.replicate n (0 : Int)).getD i 0 = 0 := by
  induction n generalizing i with
  | zero => simp [List.getD]
  | succ n ih =>
    cases i with
    | zero => rfl
    | succ i => simp [List.replicate_succ, ih i]

theorem Serialize_zero (T : List Int) :
    Serialize (List.replicate T.length 0) T = 0 := by
  rw [Serialize_formula, headD_eq_getD_zero]
  simp [replicate_getD]

/-- With the tile size `[0, 5]` (a zero in a leading position), increasing the
second component of the index vector does not change `Serialize`: the claimed
strict monotonicity fails for tile-size vectors with an interior zero. -/
theorem serialize_strict_mono_counterexample :
    Serialize [0, 0] [0, 5] = Serialize [0, 1] [0, 5]
      ∧ ([0, 1] : List Int).getD 1 0 > ([0, 0] : List Int).getD 1 0
      ∧ ([0, 0] : List Int).length = ([0, 5] : List Int).length
      ∧ ([0, 1] : List Int).length = ([0, 5] : List Int).length := by
  refine ⟨?_, by decide, by decide, by decide⟩
  decide

/-- C6 (amended): `Serialize(v, T) = v[0] + Σ_{i=1}^{dim-1} v[i]·Π_{j<i} T[j]`,
the zero vector serializes to 0, and `Serialize` is strictly increasing in
each component provided the tile sizes of all preceding dimensions are
positive (without that positivity assumption strict monotonicity fails,
see the counterexample). -/
theorem serialize_linearity :
    (∀ v T : List Int, v.length = T.length →
      Serialize v T
        = v.headD 0
          + ∑ i ∈ Finset.Ico 1 T.length, v.getD i 0 * ∏ j ∈ Finset.range i, T.getD j 0)
    ∧ (∀ T : List Int, Serialize (List.replicate T.length 0) T = 0)
    ∧ (∀ (v v' T : List Int) (k : Nat), v.length = T.length → v'.length = T.length →
        k < T.length → (∀ j, j < k → 0 < T.getD j 0) →
        (∀ j, j ≠ k → v.getD j 0 = v'.getD j 0) →
        v.getD k 0 < v'.getD k 0 → Serialize v T < Serialize v' T) := by
  refine ⟨fun v T _ => Serialize_formula v T, Serialize_zero, ?_⟩
  intro v v' T k _ _ hk hpos hagree hlt
  rw [Serialize_formula, Serialize_formula]
  rcases Nat.eq_zero_or_pos k with hk0 | hkpos
  · subst hk0
    have hsum : ∑ i ∈ Finset.Ico 1 T.length, v.getD i 0 * ∏ j ∈ Finset.range i, T.getD j 0
        = ∑ i ∈ Finset.Ico 1 T.length, v'.getD i 0 * ∏ j ∈ Finset.range i, T.getD j 0 := by
      refine Finset.sum_congr rfl (fun i hi => ?_)
      have hne : i ≠ 0 := by
        have := (Finset.mem_Ico.mp hi).1
        omega
      rw [hagree i hne]
    rw [hsum, headD_eq_getD_zero, headD_eq_getD_zero]
    exact add_lt_add_right hlt _
  · have hmem : k ∈ Finset.Ico 1 T.length := Finset.mem_Ico.mpr ⟨hkpos, hk⟩
    have hhead : v.headD 0 = v'.headD 0 := by
      rw [headD_eq_getD_zero, headD_eq_getD_zero]
      exact hagree 0 (by omega)
    rw [hhead]
    refine add_lt_add_left ?_ _
    rw [← Finset.sum_erase_add _ _ hmem, ← Finset.sum_erase_add _ _ hmem]
    have herase : ∑ i ∈ (Finset.Ico 1 T.length).erase k,
          v.getD i 0 * ∏ j ∈ Finset.range i, T.getD j 0
        = ∑ i ∈ (Finset.Ico 1 T.length).erase k,
          v'.getD i 0 * ∏ j ∈ Finset.range i, T.getD j 0 := by
      refine Finset.sum_congr rfl (fun i hi => ?_)
      rw [hagree i (Finset.ne_of_mem_erase hi)]
    rw [herase]
    refine add_lt_add_left ?_ _
    have hprod : 0 < ∏ j ∈ Finset.range k, T.getD j 0 :=
      Finset.prod_pos (fun j hj => hpos j (Finset.mem_range.mp hj))
    exact mul_lt_mul_of_pos_right hlt hprod

/-- Witness for `serialize_linearity` at concrete inputs. -/
theorem serialize_linearity_witness :
    Serialize [1, 2] [4, 5] = 9 ∧ Serialize [1, 2] [4, 5] < Serialize [1, 3] [4, 5] := by
  constructor
  · decide
  · exact serialize_linearity.2.2 [1, 2] [1, 3] [4, 5] 1 (by decide) (by decide)
      (by decide) (by decide)
      (by
        intro j hj
        match j with
        | 0 => rfl
        | 1 => exact absurd rfl hj
        | (n + 2) => simp [List.getD_eq_getElem?_getD])
      (by decide)

/-!
## Causal scheduler (`Stencil.__init__`, source lines 256-363)

A stage is modelled by the name of its output tensor, the store index vector
of its expression (`s.expr[0].idx`), and the per-input serialized window
offsets (`Stage.offset`, precomputed at stage construction from the window
sorted by `Serialize`).  The scheduler state mirrors `processing_queue`,
`processed_tensors`, the tensors' `offset` fields, the stages' `delay`
dictionaries and `chronological_tensors`.
-/

structure SchedStage where
  out : String
  storeIdx : List Int
  offsets : List (String × List Int)
deriving DecidableEq

def SchedStage.inputs (s : SchedStage) : List String := s.offsets.map Prod.fst

structure SchedGraph where
  tile : List Int
  inputName : String
  stages : List SchedStage
deriving DecidableEq

def tensorNames (g : SchedGraph) : List String :=
  g.inputName :: g.stages.map SchedStage.out

structure SchedState where
  queue : List String
  processed : List String
  offsets : List (String × Int)
  delays : List ((String × String) × Int)
  chrono : List String
deriving DecidableEq

/-- `tensor.offset` (default 0 for tensors not yet scheduled). -/
def lookupOffset (st : SchedState) (n : String) : Int := (alookup st.offsets n).getD 0

/-- Python `l[-1]` (the lists in question are nonempty). -/
def lastD (l : List Int) : Int := l.getLastD 0

/-- `Serialize(s.expr[0].idx, tile_size)` computed inside the scheduling loop. -/
def stageStoreOffset (tile : List Int) (s : SchedStage) : Int := Serialize s.storeIdx tile

/-- The `Sync` pass (source lines 279-323): starting from the current
`s.output.offset`, raise the proposed offset until, for every input tensor,
`tensor.offset + stage.offset[tensor.name][-1] - stage_offset` is covered. -/
def syncOffset (tile : List Int) (st : SchedState) (s : SchedStage) : Int :=
  s.offsets.foldl
    (fun acc nw => max acc (lookupOffset st nw.1 + lastD nw.2 - stageStoreOffset tile s))
    (lookupOffset st s.out)

/-- The delay loop (source lines 327-348): for each input,
`delay = output_offset - (x.offset + s.offset[x.name][-1] - stage_offset)`,
clamped at 0 and stored in `s.delay[x.name]`. -/
def stageDelays (tile : List Int) (st : SchedState) (s : SchedStage) (newOffset : Int) :
    List ((String × String) × Int) :=
  s.offsets.map (fun nw =>
    ((s.out, nw.1),
      max (newOffset - (lookupOffset st nw.1 + lastD nw.2 - stageStoreOffset tile s)) 0))

/-- One iteration of `for s in b.children` (source lines 265-363): if all of
`s`'s inputs are processed and its output is not, fix the output offset and
delays and enqueue the output; otherwise enqueue the unprocessed inputs. -/
def processStage (tile : List Int) (b : String) (st : SchedState) (s : SchedStage) :
    SchedState :=
  if b ∈ s.inputs then
    if (∀ n ∈ s.inputs, n ∈ st.processed) ∧ s.out ∉ st.processed then
      let newOffset := syncOffset tile st s
      { queue := st.queue ++ [s.out]
        processed := s.out :: st.processed
        offsets := (s.out, newOffset) :: st.offsets
        delays := stageDelays tile st s newOffset ++ st.delays
        chrono := st.chrono ++ [s.out] }
    else
      { st with queue := st.queue ++ s.inputs.filter (fun n => n ∉ st.processed) }
  else st

/-- Processing one popped tensor `b`: iterate over all stages consuming it. -/
def stepTensor (g : SchedGraph) (st : SchedState) (b : String) : SchedState :=
  g.stages.foldl (processStage g.tile b) st

/-- The scheduling loop (`while len(processing_queue)>0`), with fuel.  The
Python loop can diverge on graphs with cycles reachable from the input, so a
successful construction corresponds to `some` for sufficiently large fuel. -/
def runSched (g : SchedGraph) : Nat → SchedState → Option SchedState
  | 0, st => if st.queue = [] then some st else none
  | fuel + 1, st =>
      match st.queue with
      | [] => some st
      | b :: rest => runSched g fuel (stepTensor g { st with queue := rest } b)

/-- Initial state: the input tensor is processed, at offset 0, first in
`chronological_tensors`, and alone in the queue. -/
def initState (g : SchedGraph) : SchedState :=
  { queue := [g.inputName], processed := [g.inputName],
    offsets := [(g.inputName, 0)], delays := [], chrono := [g.inputName] }

/-- Wellformedness guaranteed by graph assembly: tensor names are distinct
(dict keys), every stage reads at least one tensor, window keys are distinct
(dict keys), and every per-input serialized offset list is nonempty and
ascending (`GetWindowFor` sorts the window by `Serialize`). -/
def WF (g : SchedGraph) : Prop :=
  (tensorNames g).Nodup ∧
    ∀ s ∈ g.stages, s.offsets ≠ [] ∧ (s.offsets.map Prod.fst).Nodup ∧
      ∀ nw ∈ s.offsets, nw.2 ≠ [] ∧ nw.2.Sorted (· ≤ ·)

instance : DecidablePred WF := fun g => by
  unfold WF
  infer_instance

/-! ### Association list and fold lemmas -/

theorem alookup_append_left {α β : Type} [DecidableEq α] (l₁ l₂ : List (α × β)) (k : α)
    (v : β) (h : alookup l₁ k = some v) : alookup (l₁ ++ l₂) k = some v := by
  induction l₁ with
  | nil => simp [alookup] at h
  | cons e t ih =>
    obtain ⟨k', v'⟩ := e
    by_cases he : k' = k
    · simp [alookup, he] at h ⊢
      exact h
    · simp [alookup, he] at h ⊢
      exact ih h

theorem alookup_append_right {α β : Type} [DecidableEq α] (l₁ l₂ : List (α × β)) (k : α)
    (h : ∀ e ∈ l₁, e.1 ≠ k) : alookup (l₁ ++ l₂) k = alookup l₂ k := by
  induction l₁ with
  | nil => rfl
  | cons e t ih =>
    obtain ⟨k', v'⟩ := e
    have hk : k' ≠ k := h (k', v') (by simp)
    simp [alookup, hk]
    exact ih (fun e he => h e (by simp [he]))

theorem alookup_map_pair {γ : Type} (l : List (String × γ)) (hnd : (l.map Prod.fst).Nodup)
    (o : String) (f : String × γ → Int) (nw : String × γ) (hmem : nw ∈ l) :
    alookup (l.map fun p => ((o, p.1), f p)) (o, nw.1) = some (f nw) := by
  induction l with
  | nil => simp at hmem
  | cons p t ih =>
    simp only [List.map_cons, List.nodup_cons] at hnd
    by_cases hp : p.1 = nw.1
    · have hnw_eq : nw = p := by
        rcases List.mem_cons.mp hmem with h | h
        · exact h
        · exact absurd (hp ▸ List.mem_map_of_mem Prod.fst h) hnd.1
      subst hnw_eq
      simp [alookup, hp]
    · have hmem' : nw ∈ t := by
        rcases List.mem_cons.mp hmem with h | h
        · exact absurd (congrArg Prod.fst h).symm hp
        · exact h
      simp only [List.map_cons, alookup]
      rw [if_neg (by simp [hp]), ih hnd.2 hmem']

theorem init_le_foldl_max {α : Type} (f : α → Int) (l : List α) (a : Int) :
    a ≤ l.foldl (fun acc x => max acc (f x)) a := by
  induction l generalizing a with
  | nil => exact le_refl a
  | cons h t ih => exact le_trans (le_max_left a (f h)) (ih (max a (f h)))

theorem foldl_max_ge_mem {α : Type} (f : α → Int) :
    ∀ (l : List α) (a : Int) (x : α), x ∈ l → f x ≤ l.foldl (fun acc y => max acc (f y)) a := by
  intro l
  induction l with
  | nil => intro a x hx; simp at hx
  | cons h t ih =>
    intro a x hx
    rcases List.mem_cons.mp hx with he | hx
    · subst he
      exact le_trans (le_max_right a (f x)) (init_le_foldl_max f t _)
    · exact ih _ x hx

theorem lastD_cons_cons (a b : Int) (t : List Int) :
    lastD (a :: b :: t) = lastD (b :: t) := by
  simp [lastD, List.getLastD_cons]

theorem lastD_mem : ∀ (l : List Int), l ≠ [] → lastD l ∈ l
  | [], h => absurd rfl h
  | [a], _ => by simp [lastD]
  | a :: b :: t, _ => by
    rw [lastD_cons_cons]
    exact List.mem_cons_of_mem a (lastD_mem (b :: t) (by simp))

theorem le_lastD_of_sorted : ∀ (l : List Int), l.Sorted (· ≤ ·) → ∀ x ∈ l, x ≤ lastD l := by
  intro l
  induction l with
  | nil => intro _ x hx; simp at hx
  | cons a t ih =>
    intro hsort x hx
    have hrel := (List.sorted_cons.mp hsort).1
    have htail := (List.sorted_cons.mp hsort).2
    cases t with
    | nil =>
      simp at hx
      simp [hx, lastD]
    | cons b t' =>
      rw [lastD_cons_cons]
      rcases List.mem_cons.mp hx with he | hx
      · exact he ▸ hrel _ (lastD_mem (b :: t') (by simp))
      · exact ih htail x hx

theorem syncOffset_ge (tile : List Int) (st : SchedState) (s : SchedStage)
    (nw : String × List Int) (hnw : nw ∈ s.offsets) :
    lookupOffset st nw.1 + lastD nw.2 - stageStoreOffset tile s ≤ syncOffset tile st s :=
  foldl_max_ge_mem _ s.offsets _ nw hnw

theorem syncOffset_ge_init (tile : List Int) (st : SchedState) (s : SchedStage) :
    lookupOffset st s.out ≤ syncOffset tile st s :=
  init_le_foldl_max _ s.offsets _

/-! ### The scheduler invariant -/

/-- Invariant maintained by the scheduling loop: offset entries exist exactly
for processed tensors, the chronological list enumerates the processed
tensors without duplicates starting at the input, and every processed
stage satisfies the causality constraint with its stored delays. -/
structure SchedInv (g : SchedGraph) (st : SchedState) : Prop where
  keys : ∀ n : String, (alookup st.offsets n).isSome ↔ n ∈ st.processed
  procSub : ∀ n ∈ st.processed, n ∈ tensorNames g
  inputProc : g.inputName ∈ st.processed
  chronoMem : ∀ n : String, n ∈ st.chrono ↔ n ∈ st.processed
  chronoNodup : st.chrono.Nodup
  chronoHead : ∃ t, st.chrono = g.inputName :: t
  inputsProc : ∀ s ∈ g.stages, s.out ∈ st.processed → ∀ n ∈ SchedStage.inputs s, n ∈ st.processed
  delaysProc : ∀ e ∈ st.delays, e.1.1 ∈ st.processed
  causal : ∀ s ∈ g.stages, s.out ∈ st.processed → ∀ nw ∈ s.offsets,
    (∀ x ∈ nw.2,
      lookupOffset st nw.1 + x - stageStoreOffset g.tile s ≤ lookupOffset st s.out)
    ∧ alookup st.delays (s.out, nw.1)
        = some (lookupOffset st s.out
            - (lookupOffset st nw.1 + lastD nw.2 - stageStoreOffset g.tile s))
    ∧ 0 ≤ lookupOffset st s.out
          - (lookupOffset st nw.1 + lastD nw.2 - stageStoreOffset g.tile s)

theorem SchedInv.setQueue {g : SchedGraph} {st : SchedState} (hinv : SchedInv g st) (q : List String) :
    SchedInv g { st with queue := q } :=
  ⟨hinv.keys, hinv.procSub, hinv.inputProc, hinv.chronoMem, hinv.chronoNodup,
    hinv.chronoHead, hinv.inputsProc, hinv.delaysProc, hinv.causal⟩

theorem processStage_not_mem (tile : List Int) (b : String) (st : SchedState)
    (s : SchedStage) (h : b ∉ s.inputs) : processStage tile b st s = st := by
  simp [processStage, h]

theorem processStage_else (tile : List Int) (b : String) (st : SchedState) (s : SchedStage)
    (h : b ∈ s.inputs) (hc : ¬ ((∀ n ∈ s.inputs, n ∈ st.processed) ∧ s.out ∉ st.processed)) :
    processStage tile b st s
      = { st with queue := st.queue ++ s.inputs.filter (fun n => n ∉ st.processed) } := by
  simp only [processStage, if_pos h, if_neg hc]

theorem processStage_then (tile : List Int) (b : String) (st : SchedState) (s : SchedStage)
    (h : b ∈ s.inputs) (hc : (∀ n ∈ s.inputs, n ∈ st.processed) ∧ s.out ∉ st.processed) :
    processStage tile b st s
      = { queue := st.queue ++ [s.out]
          processed := s.out :: st.processed
          offsets := (s.out, syncOffset tile st s) :: st.offsets
          delays := stageDelays tile st s (syncOffset tile st s) ++ st.delays
          chrono := st.chrono ++ [s.out] } := by
  simp only [processStage, if_pos h, if_pos hc]

theorem stage_out_inj {g : SchedGraph} (hwf : WF g) {s s' : SchedStage}
    (hs : s ∈ g.stages) (hs' : s' ∈ g.stages) (h : s'.out = s.out) : s' = s := by
  have hnd : (g.stages.map SchedStage.out).Nodup := (List.nodup_cons.mp hwf.1).2
  exact List.inj_on_of_nodup_map hnd hs' hs h

theorem SchedInv.processStage_pres {g : SchedGraph} (hwf : WF g) (b : String)
    {st : SchedState} (hinv : SchedInv g st) (s : SchedStage) (hs : s ∈ g.stages) :
    SchedInv g (processStage g.tile b st s) := by
  by_cases hb : b ∈ s.inputs
  swap
  · rw [processStage_not_mem _ _ _ _ hb]
    exact hinv
  by_cases hc : (∀ n ∈ s.inputs, n ∈ st.processed) ∧ s.out ∉ st.processed
  swap
  · rw [processStage_else _ _ _ _ hb hc]
    exact hinv.setQueue _
  rw [processStage_then _ _ _ _ hb hc]
  obtain ⟨hall, hout⟩ := hc
  obtain ⟨hoff_ne, hnames_nd, hwin⟩ := hwf.2 s hs
  set N := syncOffset g.tile st s with hN
  set st' : SchedState :=
    { queue := st.queue ++ [s.out]
      processed := s.out :: st.processed
      offsets := (s.out, N) :: st.offsets
      delays := stageDelays g.tile st s N ++ st.delays
      chrono := st.chrono ++ [s.out] } with hst'
  have hlook : ∀ n, lookupOffset st' n = if s.out = n then N else lookupOffset st n := by
    intro n
    by_cases h : s.out = n <;> simp [lookupOffset, hst', alookup, h]
  have hlook_ne : ∀ n, n ≠ s.out → lookupOffset st' n = lookupOffset st n := by
    intro n hn
    rw [hlook n, if_neg (Ne.symm hn)]
  have hlook_out : lookupOffset st' s.out = N := by
    rw [hlook, if_pos rfl]
  have hproc_ne : ∀ n, n ∈ st.processed → n ≠ s.out := by
    intro n hn he
    exact hout (he ▸ hn)
  refine ⟨?_, ?_, ?_, ?_, ?_, ?_, ?_, ?_, ?_⟩
  · -- keys
    intro n
    by_cases h : s.out = n
    · subst h
      simp [hst', alookup]
    · simp only [hst', alookup, if_neg h, List.mem_cons]
      rw [hinv.keys n]
      constructor
      · exact Or.inr
      · intro hor
        rcases hor with he | hm
        · exact absurd he.symm h
        · exact hm
  · -- procSub
    intro n hn
    rcases List.mem_cons.mp hn with he | hm
    · subst he
      exact List.mem_cons_of_mem _ (List.mem_map_of_mem SchedStage.out hs)
    · exact hinv.procSub n hm
  · -- inputProc
    exact List.mem_cons_of_mem _ hinv.inputProc
  · -- chronoMem
    intro n
    simp only [hst', List.mem_append, List.mem_singleton, List.mem_cons]
    rw [hinv.chronoMem n]
    tauto
  · -- chronoNodup
    refine List.Nodup.append hinv.chronoNodup (List.nodup_singleton _) ?_
    intro a ha hb'
    rw [List.mem_singleton] at hb'
    subst hb'
    exact hout ((hinv.chronoMem _).mp ha)
  · -- chronoHead
    obtain ⟨t, ht⟩ := hinv.chronoHead
    exact ⟨t ++ [s.out], by simp [hst', ht]⟩
  · -- inputsProc
    intro s' hs' hmem' n hn
    rcases List.mem_cons.mp hmem' with he | hm
    · have : s' = s := stage_out_inj hwf hs hs' he
      subst this
      exact List.mem_cons_of_mem _ (hall n hn)
    · exact List.mem_cons_of_mem _ (hinv.inputsProc s' hs' hm n hn)
  · -- delaysProc
    intro e he
    rcases List.mem_append.mp he with hm | hm
    · obtain ⟨nw, _, hnw_eq⟩ := List.mem_map.mp hm
      rw [← hnw_eq]
      exact List.mem_cons_self _ _
    · exact List.mem_cons_of_mem _ (hinv.delaysProc e hm)
  · -- causal
    intro s' hs' hmem' nw hnw
    rcases List.mem_cons.mp hmem' with he | hm
    · -- the newly processed stage
      have hseq : s' = s := stage_out_inj hwf hs hs' he
      subst hseq
      have hnwp : nw.1 ∈ st.processed :=
        hall nw.1 (List.mem_map_of_mem Prod.fst hnw)
      have hnw_ne : nw.1 ≠ s'.out := hproc_ne nw.1 hnwp
      have hlk1 : lookupOffset st' nw.1 = lookupOffset st nw.1 := hlook_ne nw.1 hnw_ne
      have hge : lookupOffset st nw.1 + lastD nw.2 - stageStoreOffset g.tile s'
          ≤ N := syncOffset_ge g.tile st s' nw hnw
      have hd_nonneg :
          0 ≤ N - (lookupOffset st nw.1 + lastD nw.2 - stageStoreOffset g.tile s') := by
        omega
      refine ⟨?_, ?_, ?_⟩
      · intro x hx
        have hxle : x ≤ lastD nw.2 := le_lastD_of_sorted nw.2 (hwin nw hnw).2 x hx
        rw [hlk1, hlook_out]
        omega
      · have hfind : alookup (stageDelays g.tile st s' N) (s'.out, nw.1)
            = some (max (N - (lookupOffset st nw.1 + lastD nw.2
                - stageStoreOffset g.tile s')) 0) :=
          alookup_map_pair s'.offsets hnames_nd s'.out _ nw hnw
        have : st'.delays = stageDelays g.tile st s' N ++ st.delays := rfl
        rw [this, alookup_append_left _ _ _ _ hfind, hlk1, hlook_out,
          max_eq_left hd_nonneg]
      · rw [hlk1, hlook_out]
        exact hd_nonneg
    · -- previously processed stages are untouched
      have hne_out : s'.out ≠ s.out := hproc_ne s'.out hm
      have hnwp : nw.1 ∈ st.processed :=
        hinv.inputsProc s' hs' hm nw.1 (List.mem_map_of_mem Prod.fst hnw)
      have hlk1 : lookupOffset st' nw.1 = lookupOffset st nw.1 :=
        hlook_ne nw.1 (hproc_ne nw.1 hnwp)
      have hlk2 : lookupOffset st' s'.out = lookupOffset st s'.out :=
        hlook_ne s'.out hne_out
      obtain ⟨hca, hcb, hcc⟩ := hinv.causal s' hs' hm nw hnw
      have hdel : alookup st'.delays (s'.out, nw.1) = alookup st.delays (s'.out, nw.1) := by
        have : st'.delays = stageDelays g.tile st s N ++ st.delays := rfl
        rw [this]
        refine alookup_append_right _ _ _ ?_
        intro e he
        obtain ⟨nw', _, hnw_eq⟩ := List.mem_map.mp he
        rw [← hnw_eq]
        intro hcontra
        exact hne_out (congrArg Prod.fst hcontra).symm
      refine ⟨?_, ?_, ?_⟩
      · intro x hx
        rw [hlk1, hlk2]
        exact hca x hx
      · rw [hdel, hlk1, hlk2]
        exact hcb
      · rw [hlk1, hlk2]
        exact hcc

theorem runSched_succ_nil (g : SchedGraph) (fuel : Nat) (st : SchedState)
    (h : st.queue = []) : runSched g (fuel + 1) st = some st := by
  unfold runSched
  rw [h]

theorem runSched_succ_cons (g : SchedGraph) (fuel : Nat) (st : SchedState) (b : String)
    (rest : List String) (h : st.queue = b :: rest) :
    runSched g (fuel + 1) st = runSched g fuel (stepTensor g { st with queue := rest } b) := by
  have hdef : runSched g (fuel + 1) st
      = match st.queue with
        | [] => some st
        | b :: rest => runSched g fuel (stepTensor g { st with queue := rest } b) := rfl
  rw [hdef, h]

theorem foldl_processStage_inv {g : SchedGraph} (hwf : WF g) (b : String) :
    ∀ (l : List SchedStage), (∀ s ∈ l, s ∈ g.stages) → ∀ st, SchedInv g st →
      SchedInv g (l.foldl (processStage g.tile b) st) := by
  intro l
  induction l with
  | nil => intro _ st hinv; exact hinv
  | cons s t ih =>
    intro hsub st hinv
    exact ih (fun x hx => hsub x (List.mem_cons_of_mem s hx)) _
      (SchedInv.processStage_pres hwf b hinv s (hsub s (List.mem_cons_self s t)))

theorem stepTensor_inv {g : SchedGraph} (hwf : WF g) {st : SchedState} (b : String)
    (hinv : SchedInv g st) : SchedInv g (stepTensor g st b) :=
  foldl_processStage_inv hwf b g.stages (fun _ h => h) st hinv

theorem runSched_inv {g : SchedGraph} (hwf : WF g) :
    ∀ (fuel : Nat) (st fin : SchedState), SchedInv g st →
      runSched g fuel st = some fin → SchedInv g fin := by
  intro fuel
  induction fuel with
  | zero =>
    intro st fin hinv hrun
    unfold runSched at hrun
    split at hrun
    · cases hrun
      exact hinv
    · cases hrun
  | succ fuel ih =>
    intro st fin hinv hrun
    cases hq : st.queue with
    | nil =>
      rw [runSched_succ_nil g fuel st hq] at hrun
      cases hrun
      exact hinv
    | cons b rest =>
      rw [runSched_succ_cons g fuel st b rest hq] at hrun
      exact ih _ _ (stepTensor_inv hwf b (hinv.setQueue rest)) hrun

theorem runSched_queue_nil {g : SchedGraph} :
    ∀ (fuel : Nat) (st fin : SchedState), runSched g fuel st = some fin → fin.queue = [] := by
  intro fuel
  induction fuel with
  | zero =>
    intro st fin hrun
    unfold runSched at hrun
    split at hrun
    · cases hrun
      assumption
    · cases hrun
  | succ fuel ih =>
    intro st fin hrun
    cases hq : st.queue with
    | nil =>
      rw [runSched_succ_nil g fuel st hq] at hrun
      cases hrun
      exact hq
    | cons b rest =>
      rw [runSched_succ_cons g fuel st b rest hq] at hrun
      exact ih _ _ hrun

/-- A stage all of whose inputs are processed either has been processed or
still has an input pending in the queue. -/
def Ready (g : SchedGraph) (st : SchedState) : Prop :=
  ∀ s ∈ g.stages, (∀ n ∈ SchedStage.inputs s, n ∈ st.processed) →
    s.out ∈ st.processed ∨ ∃ n ∈ SchedStage.inputs s, n ∈ st.queue

/-- Intermediate form of `Ready` while the popped tensor `b`'s children are
being folded over: the pending witness may also be `b` itself provided the
stage has not yet been visited (it is in `rem`). -/
def ReadyAux (g : SchedGraph) (b : String) (rem : List SchedStage) (st : SchedState) : Prop :=
  ∀ s ∈ g.stages, (∀ n ∈ SchedStage.inputs s, n ∈ st.processed) →
    s.out ∈ st.processed ∨ (∃ n ∈ SchedStage.inputs s, n ∈ st.queue)
      ∨ (b ∈ SchedStage.inputs s ∧ s ∈ rem)

theorem readyAux_step {g : SchedGraph} (b : String) (st : SchedState) (s₀ : SchedStage)
    (rem : List SchedStage) (h : ReadyAux g b (s₀ :: rem) st) :
    ReadyAux g b rem (processStage g.tile b st s₀) := by
  by_cases hb : b ∈ s₀.inputs
  swap
  · rw [processStage_not_mem _ _ _ _ hb]
    intro s hsg hready
    rcases h s hsg hready with h1 | h2 | ⟨h3a, h3b⟩
    · exact Or.inl h1
    · exact Or.inr (Or.inl h2)
    · rcases List.mem_cons.mp h3b with he | hm
      · exact absurd (he ▸ h3a) hb
      · exact Or.inr (Or.inr ⟨h3a, hm⟩)
  by_cases hc : (∀ n ∈ s₀.inputs, n ∈ st.processed) ∧ s₀.out ∉ st.processed
  · rw [processStage_then _ _ _ _ hb hc]
    intro s hsg hready
    by_cases hold : ∀ n ∈ SchedStage.inputs s, n ∈ st.processed
    · rcases h s hsg hold with h1 | ⟨n, hn, hq⟩ | ⟨h3a, h3b⟩
      · exact Or.inl (List.mem_cons_of_mem _ h1)
      · exact Or.inr (Or.inl ⟨n, hn, List.mem_append_left _ hq⟩)
      · rcases List.mem_cons.mp h3b with he | hm
        · exact Or.inl (by rw [he]; exact List.mem_cons_self _ _)
        · exact Or.inr (Or.inr ⟨h3a, hm⟩)
    · push_neg at hold
      obtain ⟨n₀, hn₀, hn₀p⟩ := hold
      have hmem : n₀ ∈ s₀.out :: st.processed := hready n₀ hn₀
      have hn₀eq : n₀ = s₀.out := by
        rcases List.mem_cons.mp hmem with he | hm
        · exact he
        · exact absurd hm hn₀p
      refine Or.inr (Or.inl ⟨n₀, hn₀, ?_⟩)
      rw [hn₀eq]
      exact List.mem_append_right _ (List.mem_singleton_self _)
  · rw [processStage_else _ _ _ _ hb hc]
    intro s hsg hready
    rcases h s hsg hready with h1 | ⟨n, hn, hq⟩ | ⟨h3a, h3b⟩
    · exact Or.inl h1
    · exact Or.inr (Or.inl ⟨n, hn, List.mem_append_left _ hq⟩)
    · rcases List.mem_cons.mp h3b with he | hm
      · subst he
        have hdone : s.out ∈ st.processed := by
          by_contra hcontra
          exact hc ⟨hready, hcontra⟩
        exact Or.inl hdone
      · exact Or.inr (Or.inr ⟨h3a, hm⟩)

theorem foldl_readyAux {g : SchedGraph} (b : String) :
    ∀ (rem : List SchedStage) (st : SchedState), ReadyAux g b rem st →
      ReadyAux g b [] (rem.foldl (processStage g.tile b) st) := by
  intro rem
  induction rem with
  | nil => intro st h; exact h
  | cons s₀ t ih => intro st h; exact ih _ (readyAux_step b st s₀ t h)

theorem stepTensor_ready {g : SchedGraph} {st : SchedState} {b : String} {rest : List String}
    (hready : Ready g st) (hq : st.queue = b :: rest) :
    Ready g (stepTensor g { st with queue := rest } b) := by
  have haux : ReadyAux g b g.stages { st with queue := rest } := by
    intro s hsg hr
    rcases hready s hsg hr with h1 | ⟨n, hn, hqn⟩
    · exact Or.inl h1
    · rw [hq] at hqn
      rcases List.mem_cons.mp hqn with he | hm
      · exact Or.inr (Or.inr ⟨he ▸ hn, hsg⟩)
      · exact Or.inr (Or.inl ⟨n, hn, hm⟩)
  have hfin := foldl_readyAux b g.stages _ haux
  intro s hsg hr
  rcases hfin s hsg hr with h1 | h2 | ⟨_, h3⟩
  · exact Or.inl h1
  · exact Or.inr h2
  · simp at h3

theorem runSched_ready {g : SchedGraph} :
    ∀ (fuel : Nat) (st fin : SchedState), Ready g st →
      runSched g fuel st = some fin → Ready g fin := by
  intro fuel
  induction fuel with
  | zero =>
    intro st fin hready hrun
    unfold runSched at hrun
    split at hrun
    · cases hrun
      exact hready
    · cases hrun
  | succ fuel ih =>
    intro st fin hready hrun
    cases hq : st.queue with
    | nil =>
      rw [runSched_succ_nil g fuel st hq] at hrun
      cases hrun
      exact hready
    | cons b rest =>
      rw [runSched_succ_cons g fuel st b rest hq] at hrun
      exact ih _ _ (stepTensor_ready hready hq) hrun

/-- A tensor is derivable when it is the input or the output of a stage all of
whose inputs are derivable (i.e. it is connected to the input acyclically). -/
inductive Derivable (g : SchedGraph) : String → Prop where
  | input : Derivable g g.inputName
  | stage (s : SchedStage) (hs : s ∈ g.stages)
      (h : ∀ n ∈ SchedStage.inputs s, Derivable g n) : Derivable g s.out

theorem derivable_processed {g : SchedGraph} {fin : SchedState} (hq : fin.queue = [])
    (hready : Ready g fin) (hinput : g.inputName ∈ fin.processed) :
    ∀ n, Derivable g n → n ∈ fin.processed := by
  intro n h
  induction h with
  | input => exact hinput
  | stage s hs hall ih =>
    rcases hready s hs ih with h1 | ⟨m, _, hm⟩
    · exact h1
    · rw [hq] at hm
      simp at hm

theorem initState_inv (g : SchedGraph) (hwf : WF g) : SchedInv g (initState g) := by
  have hnotout : ∀ s ∈ g.stages, s.out ∉ [g.inputName] := by
    intro s hs hmem
    rw [List.mem_singleton] at hmem
    exact (List.nodup_cons.mp hwf.1).1 (hmem ▸ List.mem_map_of_mem SchedStage.out hs)
  refine ⟨?_, ?_, ?_, ?_, ?_, ?_, ?_, ?_, ?_⟩
  · intro n
    by_cases h : g.inputName = n
    · simp [initState, alookup, h]
    · simp only [initState, alookup, if_neg h, List.mem_singleton]
      constructor
      · intro hsome
        simp at hsome
      · intro he
        exact absurd he.symm h
  · intro n hn
    rw [show (initState g).processed = [g.inputName] from rfl, List.mem_singleton] at hn
    rw [hn]
    exact List.mem_cons_self _ _
  · exact List.mem_cons_self _ _
  · intro n
    exact Iff.rfl
  · exact List.nodup_singleton _
  · exact ⟨[], rfl⟩
  · intro s hs hmem
    exact absurd hmem (hnotout s hs)
  · intro e he
    simp [initState] at he
  · intro s hs hmem
    exact absurd hmem (hnotout s hs)

theorem initState_ready (g : SchedGraph) (hwf : WF g) : Ready g (initState g) := by
  intro s hs hready
  obtain ⟨hne, _, _⟩ := hwf.2 s hs
  obtain ⟨nw, hnw⟩ := List.exists_mem_of_ne_nil s.offsets hne
  have hn : nw.1 ∈ SchedStage.inputs s := List.mem_map_of_mem Prod.fst hnw
  exact Or.inr ⟨nw.1, hn, hready nw.1 hn⟩

/-- C1: for every graph the scheduler accepts, every scheduled stage `s` and
every input window `(x, w)` of `s`: every serialized window offset of `x` is
available no later than required
(`x.offset + off - stage_store_offset ≤ s.output.offset`, in particular for
`max(s.offset[x.name]) = s.offset[x.name][-1]`), and the stored delay
`s.delay[x.name]` equals
`s.output.offset - (x.offset + s.offset[x.name][-1] - stage_store_offset)`,
which is non-negative before the `max(delay, 0)` clamp. -/
theorem scheduler_causality (g : SchedGraph) (hwf : WF g) (fuel : Nat) (fin : SchedState)
    (hrun : runSched g fuel (initState g) = some fin) (s : SchedStage) (hs : s ∈ g.stages)
    (hproc : s.out ∈ fin.processed) (nw : String × List Int) (hnw : nw ∈ s.offsets) :
    (∀ x ∈ nw.2,
      lookupOffset fin nw.1 + x - stageStoreOffset g.tile s ≤ lookupOffset fin s.out)
    ∧ alookup fin.delays (s.out, nw.1)
        = some (lookupOffset fin s.out
            - (lookupOffset fin nw.1 + lastD nw.2 - stageStoreOffset g.tile s))
    ∧ 0 ≤ lookupOffset fin s.out
          - (lookupOffset fin nw.1 + lastD nw.2 - stageStoreOffset g.tile s) := by
  have hinv := runSched_inv hwf fuel _ fin (initState_inv g hwf) hrun
  exact hinv.causal s hs hproc nw hnw

/-- C2 (amended): for every accepted graph in which every tensor is derivable
from the input, `chronological_tensors` is a permutation of the tensor set
with the primary input first.  (The non-decreasing-offset part of the claim
is false, see the counterexample.) -/
theorem scheduler_chronological (g : SchedGraph) (hwf : WF g) (fuel : Nat) (fin : SchedState)
    (hrun : runSched g fuel (initState g) = some fin)
    (hder : ∀ n ∈ tensorNames g, Derivable g n) :
    fin.chrono.Perm (tensorNames g) ∧ ∃ t, fin.chrono = g.inputName :: t := by
  have hinv := runSched_inv hwf fuel _ fin (initState_inv g hwf) hrun
  have hready := runSched_ready fuel _ fin (initState_ready g hwf) hrun
  have hq := runSched_queue_nil fuel _ fin hrun
  have hcomp := derivable_processed hq hready hinv.inputProc
  refine ⟨?_, hinv.chronoHead⟩
  rw [List.perm_ext_iff_of_nodup hinv.chronoNodup hwf.1]
  intro a
  rw [hinv.chronoMem a]
  exact ⟨hinv.procSub a, fun ha => hcomp a (hder a ha)⟩

/-! ### Concrete scheduler instances -/

def stageY : SchedStage := ⟨"y", [0], [("x", [0, 1])]⟩

def gW : SchedGraph := ⟨[7], "x", [stageY]⟩

def finW : SchedState :=
  ⟨[], ["y", "x"], [("y", 1), ("x", 0)], [(("y", "x"), 0)], ["x", "y"]⟩

def stageA : SchedStage := ⟨"a", [0], [("i", [5])]⟩

def stageT : SchedStage := ⟨"t", [0], [("a", [-10])]⟩

def gMono : SchedGraph := ⟨[7], "i", [stageA, stageT]⟩

/-- The offsets of the tensors in chronological order. -/
def chronoOffsets (st : SchedState) : List Int := st.chrono.map (lookupOffset st)

/-- Witness for `scheduler_causality`: on the one-stage graph `gW` the
scheduler yields delay 0 for edge `y <- x` and the causality inequality holds. -/
theorem scheduler_causality_witness :
    alookup finW.delays ("y", "x")
        = some (lookupOffset finW "y"
            - (lookupOffset finW "x" + lastD [0, 1] - stageStoreOffset [7] stageY))
    ∧ 0 ≤ lookupOffset finW "y"
          - (lookupOffset finW "x" + lastD [0, 1] - stageStoreOffset [7] stageY) := by
  have h := scheduler_causality gW (by decide) 3 finW (by decide) stageY (by decide)
    (by decide) ("x", [0, 1]) (by decide)
  exact ⟨h.2.1, h.2.2⟩

/-- On the accepted graph `gMono` (input `i`; `a` reads `i` at +5; `t` reads
`a` at -10) the chronological offsets are `[0, 5, 0]`, which is not
non-decreasing: the monotonicity part of the claim is false. -/
theorem scheduler_monotonic_counterexample :
    (runSched gMono 4 (initState gMono)).map chronoOffsets = some [0, 5, 0]
    ∧ WF gMono
    ∧ ¬ List.Sorted (· ≤ ·) [(0 : Int), 5, 0] := by
  refine ⟨by decide, by decide, by decide⟩

/-- Witness for `scheduler_chronological` on the concrete graph `gW`. -/
theorem scheduler_chronological_witness :
    finW.chrono.Perm (tensorNames gW) ∧ finW.chrono = ["x", "y"] := by
  have hder : ∀ n ∈ tensorNames gW, Derivable gW n := by
    intro n hn
    have hcase : n = "x" ∨ n = "y" := by
      simpa [tensorNames, gW, stageY] using hn
    rcases hcase with h | h
    · rw [h]
      exact Derivable.input
    · rw [h]
      refine Derivable.stage stageY (List.mem_singleton_self _) ?_
      intro m hm
      have hmx : m = "x" := by
        simpa [SchedStage.inputs, stageY] using hm
      rw [hmx]
      exact Derivable.input
  exact ⟨(scheduler_chronological gW (by decide) 3 finW (by decide) hder).1, by decide⟩

/-!
## Reuse buffers, reuse chains and point maps
(`_GetChains`, `_GetBuffer`, `_GetPoints`, `Stencil.GetReuseBuffers`,
`Stencil.GetNextFIFO`, and the replicated variants; source lines 432-468 and
653-737).  A producer tensor is modelled by its consuming stages, each
carrying the window read from this tensor (`s.window[b.name]`) and the delay
(`s.delay[b.name]`).
-/

/-- Insertion sort: an executable model of Python `sorted`. -/
def insertSorted (x : Int) : List Int → List Int
  | [] => [x]
  | h :: t => if x ≤ h then x :: h :: t else h :: insertSorted x t

def sortInts (l : List Int) : List Int := l.foldr insertSorted []

theorem mem_insertSorted (x y : Int) : ∀ (l : List Int),
    (y ∈ insertSorted x l ↔ y = x ∨ y ∈ l)
  | [] => by simp [insertSorted]
  | h :: t => by
    by_cases hc : x ≤ h
    · simp [insertSorted, hc]
    · simp only [insertSorted, if_neg hc, List.mem_cons, mem_insertSorted x y t]
      tauto

theorem insertSorted_perm (x : Int) : ∀ (l : List Int), (insertSorted x l).Perm (x :: l)
  | [] => List.Perm.refl _
  | h :: t => by
    by_cases hc : x ≤ h
    · simp only [insertSorted, if_pos hc]
      exact List.Perm.refl _
    · simp only [insertSorted, if_neg hc]
      exact ((insertSorted_perm x t).cons h).trans (List.Perm.swap x h t)

theorem insertSorted_sorted (x : Int) : ∀ (l : List Int), l.Sorted (· ≤ ·) →
    (insertSorted x l).Sorted (· ≤ ·)
  | [], _ => List.sorted_singleton x
  | h :: t, hs => by
    obtain ⟨hrel, htail⟩ := List.sorted_cons.mp hs
    by_cases hc : x ≤ h
    · simp only [insertSorted, if_pos hc]
      refine List.sorted_cons.mpr ⟨?_, hs⟩
      intro y hy
      rcases List.mem_cons.mp hy with he | hm
      · exact he ▸ hc
      · exact le_trans hc (hrel y hm)
    · simp only [insertSorted, if_neg hc]
      refine List.sorted_cons.mpr ⟨?_, insertSorted_sorted x t htail⟩
      intro y hy
      rcases (mem_insertSorted x y t).mp hy with he | hm
      · exact he ▸ le_of_not_le hc
      · exact hrel y hm

theorem sortInts_perm : ∀ (l : List Int), (sortInts l).Perm l
  | [] => List.Perm.refl _
  | h :: t => ((insertSorted_perm h (sortInts t)).trans ((sortInts_perm t).cons h))

theorem mem_sortInts (y : Int) (l : List Int) : y ∈ sortInts l ↔ y ∈ l :=
  (sortInts_perm l).mem_iff

theorem sortInts_sorted : ∀ (l : List Int), (sortInts l).Sorted (· ≤ ·)
  | [] => List.sorted_nil
  | h :: t => insertSorted_sorted h (sortInts t) (sortInts_sorted t)

theorem sortInts_nodup (l : List Int) (h : l.Nodup) : (sortInts l).Nodup :=
  ((sortInts_perm l).nodup_iff).mpr h

structure ChainStage where
  name : String
  window : List (List Int)
  delay : Int
deriving DecidableEq

structure RTensor where
  name : String
  children : List ChainStage
deriving DecidableEq

def stageOffsets (tile : List Int) (s : ChainStage) : List Int :=
  SerializeIterative s.window tile

/-- `A†` from `_GetChains` (source line 655): union over consuming stages `s`
and lanes `i < U` of `{max(offsets) + i - x + s.delay[b.name] : x ∈ offsets}`. -/
def A_dag_list (tile : List Int) (b : RTensor) (U : Nat) : List Int :=
  b.children.flatMap (fun s =>
    (List.range U).flatMap (fun i =>
      (stageOffsets tile s).map (fun x =>
        listMax (stageOffsets tile s) + (i : Int) - x + s.delay)))

def A_dag (tile : List Int) (b : RTensor) (U : Nat) : Finset Int :=
  (A_dag_list tile b U).toFinset

/-- The sorted chain of `A†` elements in residue class `r` mod `U`. -/
def sortedResidue (tile : List Int) (b : RTensor) (U : Nat) (r : Nat) : List Int :=
  sortInts (((A_dag_list tile b U).filter (fun x => x % (U : Int) = (r : Int))).dedup)

/-- `_GetChains`: one chain per residue class, in descending residue order. -/
def GetChains (tile : List Int) (b : RTensor) (U : Nat) : List (List Int) :=
  (List.range U).reverse.map (sortedResidue tile b U)

/-- The `(start, end)` links contributed by one chain: a self-link at the
head, then adjacent pairs (source lines 681-685). -/
def linksOfChain : List Int → List (Int × Int)
  | [] => []
  | h :: t => (h, h) :: (h :: t).zip t

structure ReuseBuffer where
  length : Int
  links : List (Int × Int)
deriving DecidableEq

/-- `_GetBuffer` (source lines 677-688).  `none` models the `IndexError` of
the unguarded `chain[0]` on an empty chain and the `ValueError` of `max([])`. -/
def GetBuffer (tile : List Int) (b : RTensor) (U : Nat) : Option ReuseBuffer :=
  if [] ∈ GetChains tile b U then none
  else
    match (GetChains tile b U).flatten with
    | [] => none
    | h :: t => some ⟨listMax (h :: t) + 1, (GetChains tile b U).flatMap linksOfChain⟩

/-- `Stencil.GetReuseBuffers` assigns `_GetBuffer` per producer tensor. -/
def GetReuseBuffers (tile : List Int) (tensors : List RTensor) (U : Nat) :
    List (String × Option ReuseBuffer) :=
  tensors.map (fun b => (b.name, GetBuffer tile b U))

/-- `A†` of `_get_replicated_reuse_chains` (source lines 693-697): no
per-lane union, but the `delay` term IS added. -/
def repl_A_dag_list (tile : List Int) (b : RTensor) : List Int :=
  b.children.flatMap (fun s =>
    (stageOffsets tile s).map (fun x =>
      listMax (stageOffsets tile s) - x + s.delay))

def repl_A_dag (tile : List Int) (b : RTensor) : Finset Int :=
  (repl_A_dag_list tile b).toFinset

/-- Modelled from the spec: the spec claims the replicated `A†` is the union
over consuming stages of `{max(offsets) - x : x ∈ offsets}` with no `delay`
term added; this definition follows the spec's words for comparison. -/
def repl_A_dag_specNoDelay (tile : List Int) (b : RTensor) : Finset Int :=
  (b.children.flatMap (fun s =>
    (stageOffsets tile s).map (fun x =>
      listMax (stageOffsets tile s) - x))).toFinset

def repl_sortedResidue (tile : List Int) (b : RTensor) (R : Nat) (r : Nat) : List Int :=
  sortInts (((repl_A_dag_list tile b).filter (fun x => x % (R : Int) = (r : Int))).dedup)

def get_replicated_reuse_chains (tile : List Int) (b : RTensor) (R : Nat) :
    List (List Int) :=
  (List.range R).reverse.map (repl_sortedResidue tile b R)

/-- `_get_replicated_reuse_buffer` (source lines 723-737): empty chains are
skipped by the `if len(chain) > 0` guard, so only `max([])` can fail. -/
def get_replicated_reuse_buffer (tile : List Int) (b : RTensor) (R : Nat) :
    Option ReuseBuffer :=
  match (get_replicated_reuse_chains tile b R).flatten with
  | [] => none
  | h :: t =>
      some ⟨listMax (h :: t) + 1, (get_replicated_reuse_chains tile b R).flatMap linksOfChain⟩

/-- One `all_points.setdefault(offset, {})[lane] = rank` step of `_GetPoints`. -/
def addPoint (m : List (Int × List (Nat × Nat))) (off : Int) (lane rank : Nat) :
    List (Int × List (Nat × Nat)) :=
  dictInsert m off (dictInsert ((alookup m off).getD []) lane rank)

/-- The per-stage point dictionary of `_GetPoints` (source lines 662-670):
`points[max_offset - offset + delay + u][U - 1 - u] = rank`. -/
def pointsFor (tile : List Int) (s : ChainStage) (U : Nat) :
    List (Int × List (Nat × Nat)) :=
  (List.range U).foldl (fun m (u : Nat) =>
    ((stageOffsets tile s).enum).foldl (fun m' p =>
      addPoint m' (listMax (stageOffsets tile s) - p.2 + s.delay + (u : Int))
        (U - 1 - u) p.1) m) []

def GetPoints (tile : List Int) (b : RTensor) (U : Nat) :
    List (String × List (Int × List (Nat × Nat))) :=
  b.children.map (fun s => (s.name, pointsFor tile s U))

/-- The per-stage point dictionary of `_get_replicated_points` (source lines
707-715): `points[max_offset - offset + delay] = rank`, no lane dimension. -/
def replPointsFor (tile : List Int) (s : ChainStage) : List (Int × Nat) :=
  ((stageOffsets tile s).enum).foldl (fun m p =>
    dictInsert m (listMax (stageOffsets tile s) - p.2 + s.delay) p.1) []

def get_replicated_points (tile : List Int) (b : RTensor) :
    List (String × List (Int × Nat)) :=
  b.children.map (fun s => (s.name, replPointsFor tile s))

/-- One iteration of the `reuse_buffer_lengths` loop in `GetReuseBuffers`
(source lines 442-449), carrying the `first` flag array and the dict. -/
def lengthsStep (U : Nat) (st : List Bool × List (Int × Int)) (link : Int × Int) :
    List Bool × List (Int × Int) :=
  let lane := (link.1 % (U : Int)).toNat
  if st.1.getD lane true then
    let first' := st.1.set lane false
    if (U : Int) ≤ link.1 then (first', dictInsert st.2 link.2 (link.2.fdiv (U : Int)))
    else (first', dictInsert st.2 link.2 ((link.2 - link.1).fdiv (U : Int)))
  else (st.1, dictInsert st.2 link.2 ((link.2 - link.1).fdiv (U : Int)))

/-- `reuse_buffer_lengths[b.name]` computed from the buffer links. -/
def reuseBufferLengths (links : List (Int × Int)) (U : Nat) : List (Int × Int) :=
  (links.foldl (lengthsStep U) (List.replicate U true, [])).2

/-- `Stencil.GetNextFIFO` (source lines 459-468): `{start: end}` for each
non-self link. -/
def nextFifo (links : List (Int × Int)) : List (Int × Int) :=
  links.filter (fun p => p.1 < p.2)

/-- Wellformedness of a producer tensor: it has a consumer, every consumer's
window is nonempty, and the (scheduler-produced, clamped) delays are
non-negative. -/
def WFChain (b : RTensor) : Prop :=
  b.children ≠ [] ∧ ∀ s ∈ b.children, s.window ≠ [] ∧ 0 ≤ s.delay

instance : DecidablePred WFChain := fun b => by
  unfold WFChain
  infer_instance

theorem foldl_max_spec : ∀ (l : List Int) (a : Int),
    (l.foldl max a = a ∨ l.foldl max a ∈ l) ∧ a ≤ l.foldl max a ∧ ∀ x ∈ l, x ≤ l.foldl max a
  | [], a => ⟨Or.inl rfl, le_refl a, by simp⟩
  | h :: t, a => by
    obtain ⟨hmem, hle, hbound⟩ := foldl_max_spec t (max a h)
    rw [List.foldl_cons]
    refine ⟨?_, le_trans (le_max_left a h) hle, ?_⟩
    · rcases hmem with he | hm
      · rcases max_choice a h with hc | hc
        · rw [he, hc]
          exact Or.inl rfl
        · rw [he, hc]
          exact Or.inr (List.mem_cons_self _ _)
      · exact Or.inr (List.mem_cons_of_mem _ hm)
    · intro x hx
      rcases List.mem_cons.mp hx with he | hm
      · subst he
        exact le_trans (le_max_right a x) hle
      · exact hbound x hm

theorem listMax_mem (l : List Int) (h : l ≠ []) : listMax l ∈ l := by
  unfold listMax
  rcases (foldl_max_spec l (l.headD 0)).1 with he | hm
  · rw [he]
    cases l with
    | nil => exact absurd rfl h
    | cons a t => exact List.mem_cons_self _ _
  · exact hm

theorem le_listMax (l : List Int) (x : Int) (hx : x ∈ l) : x ≤ listMax l :=
  (foldl_max_spec l (l.headD 0)).2.2 x hx

theorem mem_A_dag_iff (tile : List Int) (b : RTensor) (U : Nat) (y : Int) :
    y ∈ A_dag tile b U ↔ ∃ s ∈ b.children, ∃ i < U, ∃ x ∈ stageOffsets tile s,
      y = listMax (stageOffsets tile s) + (i : Int) - x + s.delay := by
  unfold A_dag A_dag_list
  simp only [List.mem_toFinset, List.mem_flatMap, List.mem_map, List.mem_range]
  constructor
  · rintro ⟨s, hs, i, hi, x, hx, he⟩
    exact ⟨s, hs, i, hi, x, hx, he.symm⟩
  · rintro ⟨s, hs, i, hi, x, hx, he⟩
    exact ⟨s, hs, i, hi, x, hx, he.symm⟩

theorem stageOffsets_ne_nil (tile : List Int) (s : ChainStage) (h : s.window ≠ []) :
    stageOffsets tile s ≠ [] := by
  intro hc
  exact h (by simpa [stageOffsets, SerializeIterative] using hc)

theorem mem_sortedResidue (tile : List Int) (b : RTensor) (U : Nat) (r : Nat) (x : Int) :
    x ∈ sortedResidue tile b U r ↔ x ∈ A_dag tile b U ∧ x % (U : Int) = (r : Int) := by
  rw [sortedResidue, mem_sortInts, List.mem_dedup, List.mem_filter, A_dag,
    List.mem_toFinset]
  simp

theorem sortedResidue_sorted (tile : List Int) (b : RTensor) (U : Nat) (r : Nat) :
    (sortedResidue tile b U r).Sorted (· ≤ ·) := sortInts_sorted _

theorem sortedResidue_ne_nil (tile : List Int) (b : RTensor) (U : Nat) (hU : 1 ≤ U)
    (hb : WFChain b) (r : Nat) (hr : r < U) : sortedResidue tile b U r ≠ [] := by
  obtain ⟨s, hs⟩ := List.exists_mem_of_ne_nil b.children hb.1
  have hoff : stageOffsets tile s ≠ [] := stageOffsets_ne_nil tile s (hb.2 s hs).1
  have hM : listMax (stageOffsets tile s) ∈ stageOffsets tile s := listMax_mem _ hoff
  have hUne : ((U : Int)) ≠ 0 := by
    have : (0 : Int) < (U : Int) := by exact_mod_cast hU
    omega
  have hUpos : (0 : Int) < (U : Int) := by exact_mod_cast hU
  set i : Int := ((r : Int) - s.delay) % (U : Int) with hidef
  have hi0 : 0 ≤ i := Int.emod_nonneg _ hUne
  have hiU : i < (U : Int) := Int.emod_lt_of_pos _ hUpos
  have hnat : ((i.toNat : Nat) : Int) = i := Int.toNat_of_nonneg hi0
  have hnatU : i.toNat < U := by
    have := hiU
    rw [← hnat] at this
    exact_mod_cast this
  have hymem : listMax (stageOffsets tile s) + ((i.toNat : Nat) : Int)
      - listMax (stageOffsets tile s) + s.delay ∈ A_dag tile b U :=
    (mem_A_dag_iff tile b U _).mpr ⟨s, hs, i.toNat, hnatU, _, hM, rfl⟩
  have hyval : listMax (stageOffsets tile s) + ((i.toNat : Nat) : Int)
      - listMax (stageOffsets tile s) + s.delay = i + s.delay := by
    rw [hnat]
    ring
  rw [hyval] at hymem
  have hres : (i + s.delay) % (U : Int) = (r : Int) := by
    rw [hidef, Int.add_emod, Int.emod_emod_of_dvd _ (dvd_refl _), ← Int.add_emod,
      sub_add_cancel]
    exact Int.emod_eq_of_lt (by positivity) (by exact_mod_cast hr)
  intro hnil
  have hmem : i + s.delay ∈ sortedResidue tile b U r :=
    (mem_sortedResidue tile b U r _).mpr ⟨hymem, hres⟩
  rw [hnil] at hmem
  simp at hmem

theorem nil_not_mem_GetChains (tile : List Int) (b : RTensor) (U : Nat) (hU : 1 ≤ U)
    (hb : WFChain b) : [] ∉ GetChains tile b U := by
  intro hmem
  obtain ⟨r, hr, he⟩ := List.mem_map.mp hmem
  exact sortedResidue_ne_nil tile b U hU hb r
    (List.mem_range.mp (List.mem_reverse.mp hr)) he

theorem mem_flatten_chains (tile : List Int) (b : RTensor) (U : Nat) (x : Int) :
    x ∈ (GetChains tile b U).flatten ↔ x ∈ A_dag tile b U := by
  rw [List.mem_flatten]
  constructor
  · rintro ⟨c, hc, hx⟩
    obtain ⟨r, _, he⟩ := List.mem_map.mp hc
    rw [← he] at hx
    exact ((mem_sortedResidue tile b U r x).mp hx).1
  · intro hx
    obtain ⟨s, _, i, hiU, _⟩ := (mem_A_dag_iff tile b U x).mp hx
    have hU0 : 0 < U := lt_of_le_of_lt (Nat.zero_le i) hiU
    have hUpos : (0 : Int) < (U : Int) := by exact_mod_cast hU0
    have hr0 : 0 ≤ x % (U : Int) := Int.emod_nonneg _ (by omega)
    have hrU : x % (U : Int) < (U : Int) := Int.emod_lt_of_pos _ hUpos
    have hrnat : (((x % (U : Int)).toNat : Nat) : Int) = x % (U : Int) :=
      Int.toNat_of_nonneg hr0
    refine ⟨sortedResidue tile b U (x % (U : Int)).toNat, ?_, ?_⟩
    · refine List.mem_map_of_mem _ (List.mem_reverse.mpr (List.mem_range.mpr ?_))
      have := hrU
      rw [← hrnat] at this
      exact_mod_cast this
    · exact (mem_sortedResidue tile b U _ x).mpr ⟨hx, by rw [hrnat]⟩

theorem GetBuffer_eq (tile : List Int) (b : RTensor) (U : Nat) (hU : 1 ≤ U)
    (hb : WFChain b) :
    ∃ h t, (GetChains tile b U).flatten = h :: t
      ∧ GetBuffer tile b U
          = some ⟨listMax (h :: t) + 1, (GetChains tile b U).flatMap linksOfChain⟩ := by
  have hne : (GetChains tile b U).flatten ≠ [] := by
    intro hj
    have hc0 : sortedResidue tile b U 0 ∈ GetChains tile b U :=
      List.mem_map_of_mem _ (List.mem_reverse.mpr (List.mem_range.mpr (by omega)))
    obtain ⟨x, hx⟩ := List.exists_mem_of_ne_nil _
      (sortedResidue_ne_nil tile b U hU hb 0 (by omega))
    have : x ∈ (GetChains tile b U).flatten := List.mem_flatten.mpr ⟨_, hc0, hx⟩
    rw [hj] at this
    simp at this
  cases hj : (GetChains tile b U).flatten with
  | nil => exact absurd hj hne
  | cons h t =>
    refine ⟨h, t, rfl, ?_⟩
    unfold GetBuffer
    rw [if_neg (nil_not_mem_GetChains tile b U hU hb), hj]

/-- C4: for every producer tensor (with a consumer, nonempty windows and
clamped delays), `GetReuseBuffers()[b.name]` is `max(A†) + 1` followed by,
for each residue class of `A†` mod `U` in descending residue order, a
self-link at the chain's smallest element and then adjacent-pair links over
the chain sorted ascending. -/
theorem reuse_buffer_structure (tile : List Int) (b : RTensor) (U : Nat) (hU : 1 ≤ U)
    (hb : WFChain b) :
    ∃ buf, GetBuffer tile b U = some buf
      ∧ (buf.length - 1) ∈ A_dag tile b U
      ∧ (∀ x ∈ A_dag tile b U, x ≤ buf.length - 1)
      ∧ buf.links
          = (List.range U).reverse.flatMap (fun r => linksOfChain (sortedResidue tile b U r))
      ∧ ∀ r, r < U →
          (sortedResidue tile b U r).Sorted (· ≤ ·)
          ∧ (∀ x, x ∈ sortedResidue tile b U r
              ↔ x ∈ A_dag tile b U ∧ x % (U : Int) = (r : Int))
          ∧ ∃ v chainTail, sortedResidue tile b U r = v :: chainTail
              ∧ (∀ x ∈ sortedResidue tile b U r, v ≤ x)
              ∧ linksOfChain (sortedResidue tile b U r)
                  = (v, v) :: (v :: chainTail).zip chainTail := by
  obtain ⟨h, t, hflat, hbuf⟩ := GetBuffer_eq tile b U hU hb
  refine ⟨_, hbuf, ?_, ?_, ?_, ?_⟩
  · show listMax (h :: t) + 1 - 1 ∈ A_dag tile b U
    rw [add_sub_cancel_right]
    rw [← mem_flatten_chains tile b U, hflat]
    exact listMax_mem _ (by simp)
  · intro x hx
    rw [← mem_flatten_chains tile b U, hflat] at hx
    show x ≤ listMax (h :: t) + 1 - 1
    rw [add_sub_cancel_right]
    exact le_listMax _ x hx
  · show (GetChains tile b U).flatMap linksOfChain = _
    rw [GetChains, List.flatMap_map]
  · intro r hr
    refine ⟨sortedResidue_sorted tile b U r, ?_, ?_⟩
    · exact mem_sortedResidue tile b U r
    · have hne := sortedResidue_ne_nil tile b U hU hb r hr
      have hsort := sortedResidue_sorted tile b U r
      cases hcs : sortedResidue tile b U r with
      | nil => exact absurd hcs hne
      | cons v chainTail =>
        rw [hcs] at hsort
        refine ⟨v, chainTail, rfl, ?_, rfl⟩
        intro x hx
        rcases List.mem_cons.mp hx with he | hm
        · rw [he]
        · exact (List.sorted_cons.mp hsort).1 x hm

def bC4 : RTensor := ⟨"b", [⟨"s", [[0]], 1⟩]⟩

def bC10 : RTensor := ⟨"b", [⟨"s", [[0]], 0⟩]⟩

/-- Witness for `reuse_buffer_structure` at the concrete tensor `bC4`
(single consumer, window `[[0]]`, delay 1, unroll factor 2):
`A† = {1, 2}`, chains `[[1], [2]]`, buffer `[3, (1,1), (2,2)]`. -/
theorem reuse_buffer_structure_witness :
    GetBuffer [5] bC4 2 = some ⟨3, [(1, 1), (2, 2)]⟩
      ∧ ((3 : Int) - 1) ∈ A_dag [5] bC4 2 := by
  obtain ⟨buf, h1, h2, _⟩ := reuse_buffer_structure [5] bC4 2 (by decide) (by decide)
  have heq : GetBuffer [5] bC4 2 = some ⟨3, [(1, 1), (2, 2)]⟩ := by decide
  have hbuf : buf = ⟨3, [(1, 1), (2, 2)]⟩ := by
    rw [heq] at h1
    exact (Option.some_inj.mp h1).symm
  rw [hbuf] at h2
  exact ⟨heq, h2⟩

/-- C10: with `U ≥ 1`, a consumer and nonempty windows, each consuming stage
contributes `delay, delay+1, ..., delay+U-1` to `A†` (taking `x = max`), so
every residue class mod `U` is inhabited, no chain is empty, and the
unguarded `chain[0]` in `_GetBuffer` cannot fail.  The replicated variant
lacks the per-lane union: at a concrete input its chain list contains an
empty chain, which the `if len(chain) > 0` guard skips. -/
theorem unguarded_chain_indexing_safe :
    (∀ (tile : List Int) (b : RTensor) (U : Nat), 1 ≤ U → WFChain b →
      [] ∉ GetChains tile b U ∧ (GetBuffer tile b U).isSome)
    ∧ [] ∈ get_replicated_reuse_chains [5] bC10 2
    ∧ get_replicated_reuse_buffer [5] bC10 2 = some ⟨1, [(0, 0)]⟩ := by
  refine ⟨fun tile b U hU hb => ⟨nil_not_mem_GetChains tile b U hU hb, ?_⟩,
    by decide, by decide⟩
  obtain ⟨h, t, _, hbuf⟩ := GetBuffer_eq tile b U hU hb
  rw [hbuf]
  rfl

/-- Witness for `unguarded_chain_indexing_safe` at a concrete input. -/
theorem unguarded_chain_indexing_safe_witness :
    ([] ∉ GetChains [5] bC4 2) ∧ (GetBuffer [5] bC4 2).isSome := by
  exact unguarded_chain_indexing_safe.1 [5] bC4 2 (by decide) (by decide)

/-!
### Per-tap register lengths (`reuse_buffer_lengths`, source lines 442-449)
-/

/-- The entries the length loop records for one chain: the lane's first link
(the self-link at the chain head `h`) records `h // U` when `h ≥ U` and `0`
otherwise; every other link `(start, end)` records `(end - start) // U`. -/
def chainEntries (c : List Int) (U : Nat) : List (Int × Int) :=
  match c with
  | [] => []
  | h :: t => (h, if (U : Int) ≤ h then h.fdiv (U : Int) else 0)
      :: ((h :: t).zip t).map (fun p => (p.2, (p.2 - p.1).fdiv (U : Int)))

theorem dictInsert_fresh {α β : Type} [DecidableEq α] :
    ∀ (l : List (α × β)) (k : α) (v : β), (∀ e ∈ l, e.1 ≠ k) →
      dictInsert l k v = l ++ [(k, v)] := by
  intro l
  induction l with
  | nil => intro k v _; rfl
  | cons e t ih =>
    intro k v h
    obtain ⟨k', v'⟩ := e
    have hk : k' ≠ k := h (k', v') (List.mem_cons_self _ _)
    simp only [dictInsert, if_neg hk, List.cons_append, List.cons.injEq, true_and]
    exact ih k v (fun e he => h e (List.mem_cons_of_mem _ he))

theorem getD_set_self : ∀ (l : List Bool) (r : Nat), r < l.length → ∀ (v d : Bool),
    (l.set r v).getD r d = v := by
  intro l
  induction l with
  | nil => intro r hr; simp at hr
  | cons h t ih =>
    intro r hr v d
    cases r with
    | zero => rfl
    | succ r => exact ih r (by simpa using hr) v d

theorem getD_set_other : ∀ (l : List Bool) (r r' : Nat), r ≠ r' → ∀ (v d : Bool),
    (l.set r v).getD r' d = l.getD r' d := by
  intro l
  induction l with
  | nil => intro r r' _ v d; rfl
  | cons h t ih =>
    intro r r' hne v d
    cases r with
    | zero =>
      cases r' with
      | zero => exact absurd rfl hne
      | succ r' => rfl
    | succ r =>
      cases r' with
      | zero => rfl
      | succ r' => exact ih r r' (fun he => hne (by rw [he])) v d

theorem sortedResidue_nodup (tile : List Int) (b : RTensor) (U : Nat) (r : Nat) :
    (sortedResidue tile b U r).Nodup :=
  sortInts_nodup _ (List.nodup_dedup _)

theorem pairs_fold (U r : Nat) :
    ∀ (ps : List (Int × Int)) (flags : List Bool) (dict : List (Int × Int)),
      (∀ p ∈ ps, ((p.1 % (U : Int)).toNat = r)) →
      flags.getD r true = false →
      (∀ p ∈ ps, ∀ e ∈ dict, e.1 ≠ p.2) →
      (ps.map Prod.snd).Nodup →
      ps.foldl (lengthsStep U) (flags, dict)
        = (flags, dict ++ ps.map (fun p => (p.2, (p.2 - p.1).fdiv (U : Int)))) := by
  intro ps
  induction ps with
  | nil => intro flags dict _ _ _ _; simp
  | cons p t ih =>
    intro flags dict hres hflag hfresh hnd
    have hndt : (t.map Prod.snd).Nodup := (List.nodup_cons.mp (by simpa using hnd)).2
    have hp2 : p.2 ∉ t.map Prod.snd := (List.nodup_cons.mp (by simpa using hnd)).1
    have hstep : lengthsStep U (flags, dict) p
        = (flags, dict ++ [(p.2, (p.2 - p.1).fdiv (U : Int))]) := by
      unfold lengthsStep
      simp only [hres p (List.mem_cons_self _ _), hflag, Bool.false_eq_true, if_false]
      rw [dictInsert_fresh _ _ _ (fun e he => hfresh p (List.mem_cons_self _ _) e he)]
    have hfresh2 : ∀ q ∈ t, ∀ e ∈ dict ++ [(p.2, (p.2 - p.1).fdiv (U : Int))], e.1 ≠ q.2 := by
      intro q hq e he
      rcases List.mem_append.mp he with hm | hm
      · exact hfresh q (List.mem_cons_of_mem _ hq) e hm
      · rw [List.mem_singleton] at hm
        rw [hm]
        intro hcontra
        refine hp2 ?_
        rw [show p.2 = q.2 from hcontra]
        exact List.mem_map_of_mem Prod.snd hq
    rw [List.foldl_cons, hstep,
      ih flags (dict ++ [(p.2, (p.2 - p.1).fdiv (U : Int))])
        (fun q hq => hres q (List.mem_cons_of_mem _ hq)) hflag hfresh2 hndt]
    simp

theorem chain_fold (U r : Nat) (hrU : r < U) (hd : Int) (tl : List Int)
    (hres : ∀ x ∈ hd :: tl, x % (U : Int) = (r : Int)) (hnd : (hd :: tl).Nodup)
    (flags : List Bool) (dict : List (Int × Int)) (hlen : flags.length = U)
    (hflag : flags.getD r true = true)
    (hfresh : ∀ x ∈ hd :: tl, ∀ e ∈ dict, e.1 ≠ x) :
    (linksOfChain (hd :: tl)).foldl (lengthsStep U) (flags, dict)
      = (flags.set r false, dict ++ chainEntries (hd :: tl) U) := by
  have hlane : ((hd % (U : Int)).toNat) = r := by
    rw [hres hd (List.mem_cons_self _ _), Int.toNat_natCast]
  have hfreshhd : ∀ e ∈ dict, e.1 ≠ hd :=
    fun e he => hfresh hd (List.mem_cons_self _ _) e he
  have hstep : lengthsStep U (flags, dict) (hd, hd)
      = (flags.set r false,
          dict ++ [(hd, if (U : Int) ≤ hd then hd.fdiv (U : Int) else 0)]) := by
    unfold lengthsStep
    simp only [hlane, hflag, if_true]
    by_cases hc : (U : Int) ≤ hd
    · rw [if_pos hc, if_pos hc, dictInsert_fresh _ _ _ hfreshhd]
    · rw [if_neg hc, if_neg hc, dictInsert_fresh _ _ _ hfreshhd, sub_self, Int.zero_fdiv]
  have hflag2 : (flags.set r false).getD r true = false :=
    getD_set_self flags r (hlen ▸ hrU) false true
  have hndtl : tl.Nodup := (List.nodup_cons.mp hnd).2
  have hhdtl : hd ∉ tl := (List.nodup_cons.mp hnd).1
  have hpairs := pairs_fold U r ((hd :: tl).zip tl) (flags.set r false)
    (dict ++ [(hd, if (U : Int) ≤ hd then hd.fdiv (U : Int) else 0)])
    (fun p hp => by
      rw [hres p.1 (List.of_mem_zip hp).1, Int.toNat_natCast])
    hflag2
    (fun p hp e he => by
      rcases List.mem_append.mp he with hm | hm
      · exact hfresh p.2 (List.mem_cons_of_mem _ (List.of_mem_zip hp).2) e hm
      · rw [List.mem_singleton] at hm
        rw [hm]
        intro hcontra
        exact hhdtl (by rw [show hd = p.2 from hcontra]; exact (List.of_mem_zip hp).2))
    (by rw [List.map_snd_zip _ _ (by simp)]; exact hndtl)
  show ((hd, hd) :: (hd :: tl).zip tl).foldl (lengthsStep U) (flags, dict) = _
  rw [List.foldl_cons, hstep, hpairs, List.append_assoc]
  rfl

theorem getD_replicate_true : ∀ (n r : Nat), (List.replicate n true).getD r true = true := by
  intro n
  induction n with
  | zero => intro r; cases r <;> rfl
  | succ n ih =>
    intro r
    cases r with
    | zero => rfl
    | succ r => exact ih r

theorem chainEntries_key_mem : ∀ (c : List Int) (U : Nat) (e : Int × Int),
    e ∈ chainEntries c U → e.1 ∈ c := by
  intro c U e he
  cases c with
  | nil => simp [chainEntries] at he
  | cons hd tl =>
    simp only [chainEntries] at he
    rcases List.mem_cons.mp he with hm | hm
    · rw [hm]
      exact List.mem_cons_self _ _
    · obtain ⟨p, hp, hpe⟩ := List.mem_map.mp hm
      rw [← hpe]
      exact List.mem_cons_of_mem _ (List.of_mem_zip hp).2

theorem chains_fold (tile : List Int) (b : RTensor) (U : Nat) :
    ∀ (rs : List Nat) (flags : List Bool) (dict : List (Int × Int)),
      (∀ r ∈ rs, r < U) → rs.Nodup → flags.length = U →
      (∀ r ∈ rs, flags.getD r true = true) →
      (∀ r ∈ rs, sortedResidue tile b U r ≠ []) →
      (∀ r ∈ rs, ∀ x ∈ sortedResidue tile b U r, ∀ e ∈ dict, e.1 ≠ x) →
      (rs.flatMap (fun r => linksOfChain (sortedResidue tile b U r))).foldl
          (lengthsStep U) (flags, dict)
        = (rs.foldl (fun f r => f.set r false) flags,
            dict ++ rs.flatMap (fun r => chainEntries (sortedResidue tile b U r) U)) := by
  intro rs
  induction rs with
  | nil => intro flags dict _ _ _ _ _ _; simp
  | cons r₀ rs' ih =>
    intro flags dict hlt hnd hlen hflags hnenil hfresh
    have hr₀U : r₀ < U := hlt r₀ (List.mem_cons_self _ _)
    cases hc : sortedResidue tile b U r₀ with
    | nil => exact absurd hc (hnenil r₀ (List.mem_cons_self _ _))
    | cons hd tl =>
      have hres : ∀ x ∈ hd :: tl, x % (U : Int) = (r₀ : Int) := by
        intro x hx
        rw [← hc] at hx
        exact ((mem_sortedResidue tile b U r₀ x).mp hx).2
      have hndc : (hd :: tl).Nodup := by
        rw [← hc]
        exact sortedResidue_nodup tile b U r₀
      have hfreshc : ∀ x ∈ hd :: tl, ∀ e ∈ dict, e.1 ≠ x := by
        intro x hx
        rw [← hc] at hx
        exact hfresh r₀ (List.mem_cons_self _ _) x hx
      rw [List.flatMap_cons, List.foldl_append, hc,
        chain_fold U r₀ hr₀U hd tl hres hndc flags dict hlen
          (hflags r₀ (List.mem_cons_self _ _)) hfreshc]
      have hih := ih (flags.set r₀ false) (dict ++ chainEntries (hd :: tl) U)
        (fun r hr => hlt r (List.mem_cons_of_mem _ hr))
        (List.nodup_cons.mp hnd).2
        (by rw [List.length_set]; exact hlen)
        (fun r hr => by
          rw [getD_set_other flags r₀ r
            (fun he => (List.nodup_cons.mp hnd).1 (he ▸ hr)) false true]
          exact hflags r (List.mem_cons_of_mem _ hr))
        (fun r hr => hnenil r (List.mem_cons_of_mem _ hr))
        (fun r hr x hx e he => by
          rcases List.mem_append.mp he with hm | hm
          · exact hfresh r (List.mem_cons_of_mem _ hr) x hx e hm
          · have hkey : e.1 ∈ hd :: tl := chainEntries_key_mem _ _ _ hm
            have hkeyres : e.1 % (U : Int) = (r₀ : Int) := hres e.1 hkey
            have hxres : x % (U : Int) = (r : Int) :=
              ((mem_sortedResidue tile b U r x).mp hx).2
            intro hcontra
            rw [hcontra, hxres] at hkeyres
            have : r = r₀ := by exact_mod_cast hkeyres
            exact (List.nodup_cons.mp hnd).1 (this ▸ hr))
      rw [hih, List.flatMap_cons, hc, List.append_assoc]
      rfl

/-- C5 (amended): for every link of the reuse buffer, the recorded per-tap
length is `(end - start) // U`, EXCEPT for each lane's first link — the
self-link at the chain head `h` — when `h ≥ U`, where the recorded length is
`end // U` (when `h < U` the two formulas coincide at 0, so the exception is
the first link with `start ≥ U`, not `start < U` as the claim states). -/
theorem reuse_buffer_lengths_spec (tile : List Int) (b : RTensor) (U : Nat) (hU : 1 ≤ U)
    (hb : WFChain b) (buf : ReuseBuffer) (hbuf : GetBuffer tile b U = some buf) :
    reuseBufferLengths buf.links U
      = (List.range U).reverse.flatMap
          (fun r => chainEntries (sortedResidue tile b U r) U) := by
  obtain ⟨h, t, hflat, hbuf'⟩ := GetBuffer_eq tile b U hU hb
  rw [hbuf'] at hbuf
  have hlinks : buf.links = (GetChains tile b U).flatMap linksOfChain := by
    rw [← Option.some_inj.mp hbuf]
  rw [reuseBufferLengths, hlinks, GetChains, List.flatMap_map,
    chains_fold tile b U (List.range U).reverse (List.replicate U true) []
      (fun r hr => List.mem_range.mp (List.mem_reverse.mp hr))
      (List.nodup_reverse.mpr (List.nodup_range _))
      (List.length_replicate _ _)
      (fun r _ => getD_replicate_true U r)
      (fun r hr => sortedResidue_ne_nil tile b U hU hb r
        (List.mem_range.mp (List.mem_reverse.mp hr)))
      (fun r _ x _ e he => absurd he (List.not_mem_nil e))]
  simp

/-- The first link of a lane with `start ≥ U` records `end // U`, not
`(end - start) // U`: with one consumer, window `[[0]]`, delay 1 and `U = 1`,
the buffer is `[2, (1, 1)]` and the recorded length at tap 1 is `1`, whereas
the claim (whose exception only covers `start < U`) predicts
`(1 - 1) // 1 = 0`. -/
theorem reuse_buffer_lengths_counterexample :
    GetBuffer [5] bC4 1 = some ⟨2, [(1, 1)]⟩
    ∧ reuseBufferLengths [(1, 1)] 1 = [(1, 1)]
    ∧ ¬ ((1 : Int) < ((1 : Nat) : Int))
    ∧ ((1 : Int) - 1).fdiv ((1 : Nat) : Int) = 0
    ∧ (1 : Int) ≠ 0 := by
  refine ⟨by decide, by decide, by decide, by decide, by decide⟩

/-- Witness for `reuse_buffer_lengths_spec` at the concrete tensor `bC4`. -/
theorem reuse_buffer_lengths_spec_witness :
    reuseBufferLengths [(1, 1), (2, 2)] 2
      = (List.range 2).reverse.flatMap
          (fun r => chainEntries (sortedResidue [5] bC4 2 r) 2) := by
  exact reuse_buffer_lengths_spec [5] bC4 2 (by decide) (by decide)
    ⟨3, [(1, 1), (2, 2)]⟩ (by decide)

/-!
### The replicated variants and the `delay` term (C3)
-/

theorem alookup_map_values {α β γ : Type} [DecidableEq α] (g : β → γ) :
    ∀ (m : List (α × β)) (k : α),
      alookup (m.map (fun p => (p.1, g p.2))) k = (alookup m k).map g := by
  intro m
  induction m with
  | nil => intro k; rfl
  | cons e t ih =>
    intro k
    obtain ⟨k', v'⟩ := e
    by_cases h : k' = k <;> simp [alookup, h, ih k]

theorem dictInsert_map_values {α β γ : Type} [DecidableEq α] (g : β → γ) :
    ∀ (m : List (α × β)) (k : α) (v : β),
      dictInsert (m.map (fun p => (p.1, g p.2))) k (g v)
        = (dictInsert m k v).map (fun p => (p.1, g p.2)) := by
  intro m
  induction m with
  | nil => intro k v; rfl
  | cons e t ih =>
    intro k v
    obtain ⟨k', v'⟩ := e
    by_cases h : k' = k <;> simp [dictInsert, h, ih k v]

theorem addPoint_map_zero (m : List (Int × Nat)) (off : Int) (rank : Nat) :
    addPoint (m.map (fun p => (p.1, [(0, p.2)]))) off 0 rank
      = (dictInsert m off rank).map (fun p => (p.1, [(0, p.2)])) := by
  unfold addPoint
  rw [alookup_map_values (fun v => [(0, v)]) m off]
  cases hl : alookup m off with
  | none =>
    rw [show (Option.map (fun v => [(0, v)]) none).getD ([] : List (Nat × Nat)) = [] from rfl]
    exact dictInsert_map_values (fun v => [(0, v)]) m off rank
  | some v =>
    rw [show (Option.map (fun v => [(0, v)]) (some v)).getD ([] : List (Nat × Nat))
        = [(0, v)] from rfl,
      show dictInsert [(0, v)] 0 rank = [(0, rank)] from rfl]
    exact dictInsert_map_values (fun v => [(0, v)]) m off rank

theorem fold_addPoint_map (key : Nat × Int → Int) :
    ∀ (l : List (Nat × Int)) (m : List (Int × Nat)),
      l.foldl (fun m' p => addPoint m' (key p) 0 p.1) (m.map (fun p => (p.1, [(0, p.2)])))
        = (l.foldl (fun m' p => dictInsert m' (key p) p.1) m).map
            (fun p => (p.1, [(0, p.2)])) := by
  intro l
  induction l with
  | nil => intro m; rfl
  | cons p t ih =>
    intro m
    rw [List.foldl_cons, List.foldl_cons, addPoint_map_zero, ih]

theorem repl_A_dag_eq_unrolled (tile : List Int) (b : RTensor) :
    repl_A_dag tile b = A_dag tile b 1 := by
  unfold repl_A_dag A_dag repl_A_dag_list A_dag_list
  rw [show List.range 1 = [0] from rfl]
  simp

theorem replPointsFor_eq_unrolled (tile : List Int) (s : ChainStage) :
    pointsFor tile s 1
      = (replPointsFor tile s).map (fun p => (p.1, [(0, p.2)])) := by
  unfold pointsFor replPointsFor
  rw [show List.range 1 = [0] from rfl]
  have hkey : (fun p : Nat × Int =>
        listMax (stageOffsets tile s) - p.2 + s.delay + ((0 : Nat) : Int))
      = (fun p : Nat × Int => listMax (stageOffsets tile s) - p.2 + s.delay) := by
    funext p
    simp
  rw [List.foldl_cons]
  show ((stageOffsets tile s).enum).foldl
      (fun m' p => addPoint m'
        (listMax (stageOffsets tile s) - p.2 + s.delay + ((0 : Nat) : Int)) (1 - 1 - 0) p.1)
      (([] : List (Int × Nat)).map (fun p => (p.1, [(0, p.2)]))) = _
  rw [show (1 - 1 - 0 : Nat) = 0 from rfl]
  have := fold_addPoint_map
    (fun p : Nat × Int => listMax (stageOffsets tile s) - p.2 + s.delay + ((0 : Nat) : Int))
    ((stageOffsets tile s).enum) []
  rw [this]
  congr 1
  apply List.foldl_ext
  intro m' p _
  rw [show listMax (stageOffsets tile s) - p.2 + s.delay + ((0 : Nat) : Int)
      = listMax (stageOffsets tile s) - p.2 + s.delay by simp]

/-- The replicated `A†` and point map DO include the `s.delay[b.name]` term:
with one consumer of window `[[0]]` and delay 1, the replicated `A†` is `{1}`
(not `{0}` as the spec's no-delay formula gives), and the replicated point
for rank 0 sits at tap `1`, not at tap `0`. -/
theorem replicated_no_delay_counterexample :
    repl_A_dag [5] bC4 = {1}
    ∧ repl_A_dag_specNoDelay [5] bC4 = {0}
    ∧ repl_A_dag [5] bC4 ≠ repl_A_dag_specNoDelay [5] bC4
    ∧ get_replicated_points [5] bC4 = [("s", [(1, 0)])]
    ∧ alookup (replPointsFor [5] ⟨"s", [[0]], 1⟩) 0 = none := by
  refine ⟨by decide, by decide, by decide, by decide, by decide⟩

/-- C3 (amended): the replicated variants use the same algorithm as the
unrolled ones with `replication_factor` substituted for `unroll_factor` and
WITH the same `delay` term added: the replicated `A†` equals the unrolled
`A†` at unroll factor 1, and the replicated point map equals the unrolled
point map at unroll factor 1 with the single lane 0 stripped. -/
theorem replicated_variants_with_delay :
    (∀ (tile : List Int) (b : RTensor), repl_A_dag tile b = A_dag tile b 1)
    ∧ (∀ (tile : List Int) (s : ChainStage),
        pointsFor tile s 1 = (replPointsFor tile s).map (fun p => (p.1, [(0, p.2)]))) :=
  ⟨repl_A_dag_eq_unrolled, replPointsFor_eq_unrolled⟩

/-!
## Constructor validation (`Stencil.__init__`, source lines 119-213)

`stencilInit` models the construction-time checks in order: the
`iterate < 1` check (line 120), the type and channel checks for
`iterate > 1` (lines 148-152), then the name-collision checks (lines
204-210).  In the collision branches the Python code builds the error
message from `self.input.name` / `self.output.name` BEFORE those attributes
are assigned (they are assigned only in the `else` branches), so evaluating
the `raise` argument raises `AttributeError` instead of the intended
`SemanticError`; this is modelled by `attributeError`. -/
inductive BuildError where
  | semanticError (msg : String)
  | attributeError (attr : String)
deriving DecidableEq

def stencilInit (iterate : Int) (inputType outputType : String)
    (inputChan outputChan : Int) (inputName outputName : String)
    (localNames : List String) : Except BuildError Unit :=
  if iterate < 1 then
    .error (.semanticError ("cannot iterate " ++ toString iterate ++ " times"))
  else if iterate > 1 ∧ inputType ≠ outputType then
    .error (.semanticError
      ("input must have the same type as output if iterate > 1 times, "
        ++ "current input has type " ++ inputType
        ++ " but output has type " ++ outputType))
  else if iterate > 1 ∧ inputChan ≠ outputChan then
    .error (.semanticError
      ("input must have the same number of channel as output if iterate > 1 times, "
        ++ "current input has " ++ toString inputChan
        ++ " chanels but output has " ++ toString outputChan ++ " channels"))
  else if inputName ∈ localNames then
    .error (.attributeError "input")
  else if outputName ∈ localNames then
    .error (.attributeError "output")
  else
    .ok ()

/-- C8 (code bug): a local named like the primary input makes construction
fail, but with `AttributeError` (from evaluating the unassigned
`self.input.name` while building the message), not the intended
`SemanticError`; and an output named like the primary input raises nothing
at all (the output check compares against local names only). -/
theorem input_name_collision_behavior :
    stencilInit 1 "uint16" "uint16" 1 1 "foo" "bar" ["foo", "baz"]
        = .error (.attributeError "input")
    ∧ (∀ msg, stencilInit 1 "uint16" "uint16" 1 1 "foo" "bar" ["foo", "baz"]
        ≠ .error (.semanticError msg))
    ∧ stencilInit 1 "uint16" "uint16" 1 1 "foo" "foo" ["l"] = .ok () := by
  refine ⟨rfl, ?_, rfl⟩
  intro msg hcontra
  have heq : stencilInit 1 "uint16" "uint16" 1 1 "foo" "bar" ["foo", "baz"]
      = .error (.attributeError "input") := rfl
  rw [heq] at hcontra
  simp at hcontra

/-- C9: with `iterate > 1`, a scalar-type mismatch raises a `SemanticError`
naming both types; with equal types, a channel-count mismatch raises a
`SemanticError` naming both counts; when both match this check passes and
construction proceeds. -/
theorem iterate_validation (iterate : Int) (it ot : String) (ic oc : Int)
    (inN outN : String) (localNames : List String) (hiter : 1 < iterate) :
    (it ≠ ot →
      stencilInit iterate it ot ic oc inN outN localNames
        = .error (.semanticError
            ("input must have the same type as output if iterate > 1 times, "
              ++ "current input has type " ++ it ++ " but output has type " ++ ot)))
    ∧ (it = ot → ic ≠ oc →
      stencilInit iterate it ot ic oc inN outN localNames
        = .error (.semanticError
            ("input must have the same number of channel as output if iterate > 1 times, "
              ++ "current input has " ++ toString ic
              ++ " chanels but output has " ++ toString oc ++ " channels")))
    ∧ (it = ot → ic = oc → inN ∉ localNames → outN ∉ localNames →
      stencilInit iterate it ot ic oc inN outN localNames = .ok ()) := by
  have hnotlt : ¬ iterate < 1 := by omega
  refine ⟨?_, ?_, ?_⟩
  · intro hne
    rw [stencilInit, if_neg hnotlt, if_pos ⟨hiter, hne⟩]
  · intro hty hch
    rw [stencilInit, if_neg hnotlt, if_neg (by tauto), if_pos ⟨hiter, hch⟩]
  · intro hty hch hin hout
    rw [stencilInit, if_neg hnotlt, if_neg (by tauto), if_neg (by tauto),
      if_neg hin, if_neg hout]

/-- Witness for `iterate_validation` at concrete inputs. -/
theorem iterate_validation_witness :
    stencilInit 2 "uint16" "uint16" 1 2 "i" "o" ["t"]
        = .error (.semanticError
            ("input must have the same number of channel as output if iterate > 1 times, "
              ++ "current input has " ++ toString (1 : Int)
              ++ " chanels but output has " ++ toString (2 : Int) ++ " channels"))
    ∧ stencilInit 2 "uint16" "uint16" 1 1 "i" "o" ["t"] = .ok () := by
  constructor
  · exact (iterate_validation 2 "uint16" "uint16" 1 2 "i" "o" ["t"] (by decide)).2.1
      rfl (by decide)
  · exact (iterate_validation 2 "uint16" "uint16" 1 1 "i" "o" ["t"] (by decide)).2.2
      rfl rfl (by decide) (by decide)

/-!
## Forwarding network (`Stencil.GetForwardings`, source lines 503-597)

A descriptor holds the function name (`''` until initialized, the sentinel
the code tests with `if func_name: continue`), the ordered output-port list,
and the input/param port counts.  The `temp_param` (reuse length or the
border `lane-delay` string) does not affect any claimed property and is not
tracked.  The border branch (lines 543-591) only renames the function and
adds input/param ports; its condition `offset < unroll_factor and
PreserveBorderTo() and not IsInput()` is modelled by `offset < U && bf`. -/
inductive OutPort where
  | toConsumer (dst : String) (rank lane : Nat)
  | toNext (src : String) (nextOff : Int)
deriving DecidableEq

structure Forwarding where
  funcName : String
  outputs : List OutPort
  inputsCount : Nat
  paramsCount : Nat
deriving DecidableEq

/-- One iteration of the `for offset, points in dst_point_dicts.items()` loop. -/
def procOffset (nf : List (Int × Int)) (U dim : Nat) (bf : Bool) (src dst : String)
    (fwd : List (Int × Forwarding)) (entry : Int × List (Nat × Nat)) :
    List (Int × Forwarding) :=
  let d := (alookup fwd entry.1).getD ⟨"", [], 0, 0⟩
  let d1 : Forwarding :=
    { d with outputs :=
        (entry.2.reverse.map (fun lp => OutPort.toConsumer dst lp.2 lp.1)) ++ d.outputs }
  if d1.funcName ≠ "" then dictInsert fwd entry.1 d1
  else
    let d2 := match alookup nf entry.1 with
      | some nxt => { d1 with outputs := d1.outputs ++ [OutPort.toNext src nxt] }
      | none => d1
    let d3 := { d2 with inputsCount := d2.inputsCount + 1 }
    let d4 :=
      if entry.1 < (U : Int) ∧ bf then
        { d3 with funcName := "forward_" ++ src,
                  inputsCount := d3.inputsCount + 2 * (dim - 1),
                  paramsCount := d3.paramsCount + (dim - 1) + dim + 1 }
      else
        { d3 with funcName := "forward", paramsCount := d3.paramsCount + 1 }
    dictInsert fwd entry.1 d4

/-- `GetNextFIFO()[b.name]`, as used by `GetForwardings`. -/
def nextFifoOf (tile : List Int) (b : RTensor) (U : Nat) : List (Int × Int) :=
  match GetBuffer tile b U with
  | some buf => nextFifo buf.links
  | none => []

/-- `GetForwardings(src_name)`: fold over the destination stages and their
point dictionaries. -/
def GetForwardings (tile : List Int) (b : RTensor) (U dim : Nat) (bf : Bool) :
    List (Int × Forwarding) :=
  (GetPoints tile b U).foldl (fun fwd dst =>
    dst.2.foldl (procOffset (nextFifoOf tile b U) U dim bf b.name dst.1) fwd) []

/-- The number of `(lane, rank)` points destination `dst` reads at `o`. -/
def sizeAt (m : List (Int × List (Nat × Nat))) (o : Int) : Nat :=
  ((alookup m o).getD []).length

/-- The number of distinct `(stage, lane)` pairs reading tap `o`. -/
def totalPoints (dsts : List (String × List (Int × List (Nat × Nat)))) (o : Int) : Nat :=
  (dsts.map (fun dst => sizeAt dst.2 o)).sum

theorem alookup_dictInsert_self {α β : Type} [DecidableEq α] :
    ∀ (l : List (α × β)) (k : α) (v : β), alookup (dictInsert l k v) k = some v := by
  intro l
  induction l with
  | nil => intro k v; simp [dictInsert, alookup]
  | cons e t ih =>
    intro k v
    obtain ⟨k', v'⟩ := e
    by_cases h : k' = k <;> simp [dictInsert, alookup, h, ih]

theorem alookup_dictInsert_other {α β : Type} [DecidableEq α] :
    ∀ (l : List (α × β)) (k : α) (v : β) (k' : α), k ≠ k' →
      alookup (dictInsert l k v) k' = alookup l k' := by
  intro l
  induction l with
  | nil => intro k v k' h; simp [dictInsert, alookup, h]
  | cons e t ih =>
    intro k v k' h
    obtain ⟨k'', v''⟩ := e
    by_cases h2 : k'' = k
    · subst h2
      simp [dictInsert, alookup, h]
    · simp only [dictInsert, if_neg h2, alookup]
      by_cases h3 : k'' = k' <;> simp [h3, ih _ _ _ h]

theorem keys_dictInsert {α β : Type} [DecidableEq α] :
    ∀ (l : List (α × β)) (k : α) (v : β),
      (dictInsert l k v).map Prod.fst
        = if k ∈ l.map Prod.fst then l.map Prod.fst else l.map Prod.fst ++ [k] := by
  intro l
  induction l with
  | nil => intro k v; simp [dictInsert]
  | cons e t ih =>
    intro k v
    obtain ⟨k', v'⟩ := e
    by_cases h : k' = k
    · subst h
      simp [dictInsert]
    · have hne : ¬ k = k' := fun he => h he.symm
      simp only [dictInsert, if_neg h, List.map_cons, List.mem_cons, ih k v]
      by_cases hm : k ∈ t.map Prod.fst
      · simp [hm, hne]
      · simp [hm, hne]

theorem nodup_keys_dictInsert {α β : Type} [DecidableEq α] (l : List (α × β)) (k : α)
    (v : β) (h : (l.map Prod.fst).Nodup) : ((dictInsert l k v).map Prod.fst).Nodup := by
  rw [keys_dictInsert]
  by_cases hm : k ∈ l.map Prod.fst
  · rw [if_pos hm]
    exact h
  · rw [if_neg hm]
    refine List.Nodup.append h (List.nodup_singleton _) ?_
    intro a ha hb
    rw [List.mem_singleton] at hb
    exact hm (hb ▸ ha)

theorem mem_dictInsert {α β : Type} [DecidableEq α] :
    ∀ (l : List (α × β)) (k : α) (v : β) (e : α × β),
      e ∈ dictInsert l k v → e = (k, v) ∨ e ∈ l := by
  intro l
  induction l with
  | nil => intro k v e he; simp [dictInsert] at he; exact Or.inl he
  | cons p t ih =>
    intro k v e he
    obtain ⟨k', v'⟩ := p
    by_cases h : k' = k
    · simp only [dictInsert, if_pos h] at he
      rcases List.mem_cons.mp he with hm | hm
      · exact Or.inl hm
      · exact Or.inr (List.mem_cons_of_mem _ hm)
    · simp only [dictInsert, if_neg h] at he
      rcases List.mem_cons.mp he with hm | hm
      · exact Or.inr (hm ▸ List.mem_cons_self _ _)
      · rcases ih k v e hm with h1 | h1
        · exact Or.inl h1
        · exact Or.inr (List.mem_cons_of_mem _ h1)

theorem alookup_mem {α β : Type} [DecidableEq α] :
    ∀ (l : List (α × β)) (k : α) (v : β), alookup l k = some v → (k, v) ∈ l := by
  intro l
  induction l with
  | nil => intro k v h; simp [alookup] at h
  | cons p t ih =>
    intro k v h
    obtain ⟨k', v'⟩ := p
    by_cases h2 : k' = k
    · subst h2
      have hv : v' = v := by simpa [alookup] using h
      rw [← hv]
      exact List.mem_cons_self _ _
    · simp only [alookup, if_neg h2] at h
      exact List.mem_cons_of_mem _ (ih k v h)

theorem alookup_isSome_mem {α β : Type} [DecidableEq α] :
    ∀ (l : List (α × β)) (k : α), (alookup l k).isSome → k ∈ l.map Prod.fst := by
  intro l k h
  cases hl : alookup l k with
  | none => rw [hl] at h; simp at h
  | some v => exact List.mem_map_of_mem Prod.fst (alookup_mem l k v hl)

theorem alookup_of_mem_nodup {α β : Type} [DecidableEq α] :
    ∀ (l : List (α × β)) (k : α) (v : β), (l.map Prod.fst).Nodup → (k, v) ∈ l →
      alookup l k = some v := by
  intro l
  induction l with
  | nil => intro k v _ h; simp at h
  | cons p t ih =>
    intro k v hnd hm
    obtain ⟨k', v'⟩ := p
    simp only [List.map_cons, List.nodup_cons] at hnd
    rcases List.mem_cons.mp hm with he | hmt
    · injection he with h1 h2
      subst h1
      subst h2
      simp [alookup]
    · by_cases h2 : k' = k
      · subst h2
        exact absurd (List.mem_map_of_mem Prod.fst hmt) hnd.1
      · simp only [alookup, if_neg h2]
        exact ih k v hnd.2 hmt

theorem forward_src_ne_empty (src : String) : ("forward_" ++ src) ≠ "" := by
  intro h
  have hlen := congrArg String.length h
  rw [String.length_append] at hlen
  have h8 : String.length "forward_" = 8 := rfl
  rw [h8] at hlen
  simp at hlen

theorem forward_ne_empty : ("forward" : String) ≠ "" := by decide

theorem procOffset_eq_dictInsert (nf : List (Int × Int)) (U dim : Nat) (bf : Bool)
    (src dst : String) (fwd : List (Int × Forwarding)) (entry : Int × List (Nat × Nat)) :
    ∃ d', procOffset nf U dim bf src dst fwd entry = dictInsert fwd entry.1 d' := by
  unfold procOffset
  dsimp only
  split
  · exact ⟨_, rfl⟩
  · exact ⟨_, rfl⟩

theorem procOffset_lookup_other (nf : List (Int × Int)) (U dim : Nat) (bf : Bool)
    (src dst : String) (fwd : List (Int × Forwarding)) (entry : Int × List (Nat × Nat))
    (o' : Int) (hne : entry.1 ≠ o') :
    alookup (procOffset nf U dim bf src dst fwd entry) o' = alookup fwd o' := by
  obtain ⟨d', he⟩ := procOffset_eq_dictInsert nf U dim bf src dst fwd entry
  rw [he, alookup_dictInsert_other _ _ _ _ hne]

theorem procOffset_nodup (nf : List (Int × Int)) (U dim : Nat) (bf : Bool)
    (src dst : String) (fwd : List (Int × Forwarding)) (entry : Int × List (Nat × Nat))
    (h : (fwd.map Prod.fst).Nodup) :
    ((procOffset nf U dim bf src dst fwd entry).map Prod.fst).Nodup := by
  obtain ⟨d', he⟩ := procOffset_eq_dictInsert nf U dim bf src dst fwd entry
  rw [he]
  exact nodup_keys_dictInsert _ _ _ h

theorem procOffset_lookup_self_some (nf : List (Int × Int)) (U dim : Nat) (bf : Bool)
    (src dst : String) (fwd : List (Int × Forwarding)) (entry : Int × List (Nat × Nat))
    (d : Forwarding) (hl : alookup fwd entry.1 = some d) (hfn : d.funcName ≠ "") :
    ∃ d', alookup (procOffset nf U dim bf src dst fwd entry) entry.1 = some d'
      ∧ d'.funcName ≠ ""
      ∧ d'.outputs.length = d.outputs.length + entry.2.length := by
  unfold procOffset
  rw [hl]
  dsimp only [Option.getD_some]
  rw [if_pos hfn]
  refine ⟨_, alookup_dictInsert_self _ _ _, hfn, ?_⟩
  simp [Nat.add_comm]

theorem procOffset_lookup_self_none (nf : List (Int × Int)) (U dim : Nat) (bf : Bool)
    (src dst : String) (fwd : List (Int × Forwarding)) (entry : Int × List (Nat × Nat))
    (hl : alookup fwd entry.1 = none) :
    ∃ d', alookup (procOffset nf U dim bf src dst fwd entry) entry.1 = some d'
      ∧ d'.funcName ≠ ""
      ∧ d'.outputs.length
          = entry.2.length + (if (alookup nf entry.1).isSome then 1 else 0) := by
  unfold procOffset
  rw [hl]
  dsimp only [Option.getD_none]
  rw [if_neg (by simp)]
  cases hnf : alookup nf entry.1 with
  | some nxt =>
    by_cases hbd : entry.1 < (U : Int) ∧ bf
    · rw [if_pos hbd]
      exact ⟨_, alookup_dictInsert_self _ _ _, forward_src_ne_empty src, by simp⟩
    · rw [if_neg hbd]
      exact ⟨_, alookup_dictInsert_self _ _ _, forward_ne_empty, by simp⟩
  | none =>
    by_cases hbd : entry.1 < (U : Int) ∧ bf
    · rw [if_pos hbd]
      exact ⟨_, alookup_dictInsert_self _ _ _, forward_src_ne_empty src, by simp⟩
    · rw [if_neg hbd]
      exact ⟨_, alookup_dictInsert_self _ _ _, forward_ne_empty, by simp⟩

theorem alookup_eq_none_of_not_mem {α β : Type} [DecidableEq α] :
    ∀ (l : List (α × β)) (k : α), k ∉ l.map Prod.fst → alookup l k = none := by
  intro l
  induction l with
  | nil => intro k _; rfl
  | cons p t ih =>
    intro k h
    obtain ⟨k', v'⟩ := p
    simp only [List.map_cons, List.mem_cons] at h
    push_neg at h
    have hne : k' ≠ k := fun he => h.1 (Eq.symm he)
    simp only [alookup, if_neg hne]
    exact ih k h.2

theorem sizeAt_cons (o₀ : Int) (pts₀ : List (Nat × Nat))
    (rest : List (Int × List (Nat × Nat))) (o : Int) :
    sizeAt ((o₀, pts₀) :: rest) o = if o₀ = o then pts₀.length else sizeAt rest o := by
  by_cases h : o₀ = o <;> simp [sizeAt, alookup, h]

theorem inner_fold (nf : List (Int × Int)) (U dim : Nat) (bf : Bool) (src dst : String) :
    ∀ (entries : List (Int × List (Nat × Nat))) (fwd : List (Int × Forwarding)),
      (entries.map Prod.fst).Nodup →
      (∀ o d, alookup fwd o = some d → d.funcName ≠ "") →
      (∀ o d, alookup (entries.foldl (procOffset nf U dim bf src dst) fwd) o = some d →
          d.funcName ≠ "")
      ∧ ((fwd.map Prod.fst).Nodup →
          ((entries.foldl (procOffset nf U dim bf src dst) fwd).map Prod.fst).Nodup)
      ∧ (∀ o d, alookup fwd o = some d →
          ∃ d', alookup (entries.foldl (procOffset nf U dim bf src dst) fwd) o = some d'
            ∧ d'.outputs.length = d.outputs.length + sizeAt entries o
            ∧ d'.funcName ≠ "")
      ∧ (∀ o, alookup fwd o = none → o ∉ entries.map Prod.fst →
          alookup (entries.foldl (procOffset nf U dim bf src dst) fwd) o = none)
      ∧ (∀ o, alookup fwd o = none → o ∈ entries.map Prod.fst →
          ∃ d', alookup (entries.foldl (procOffset nf U dim bf src dst) fwd) o = some d'
            ∧ d'.outputs.length
                = sizeAt entries o + (if (alookup nf o).isSome then 1 else 0)
            ∧ d'.funcName ≠ "") := by
  intro entries
  induction entries with
  | nil =>
    intro fwd _ hinv
    refine ⟨hinv, fun h => h, ?_, fun o h _ => h, ?_⟩
    · intro o d h
      exact ⟨d, h, by simp [sizeAt, alookup], hinv o d h⟩
    · intro o _ h
      simp at h
  | cons e rest ih =>
    intro fwd hnd hinv
    obtain ⟨o₀, pts₀⟩ := e
    simp only [List.map_cons, List.nodup_cons] at hnd
    obtain ⟨ho₀, hndr⟩ := hnd
    set fwd₁ := procOffset nf U dim bf src dst fwd (o₀, pts₀) with hfwd₁
    have hother : ∀ o', o' ≠ o₀ → alookup fwd₁ o' = alookup fwd o' := by
      intro o' ho'
      exact procOffset_lookup_other nf U dim bf src dst fwd (o₀, pts₀) o'
        (fun he => ho' (Eq.symm he))
    have hfold : ((o₀, pts₀) :: rest).foldl (procOffset nf U dim bf src dst) fwd
        = rest.foldl (procOffset nf U dim bf src dst) fwd₁ := rfl
    have hsize₀ : sizeAt rest o₀ = 0 := by
      rw [sizeAt, alookup_eq_none_of_not_mem rest o₀ ho₀]
      rfl
    cases hl : alookup fwd o₀ with
    | some d₀ =>
      have hfn₀ : d₀.funcName ≠ "" := hinv o₀ d₀ hl
      obtain ⟨d₁, hd₁look, hd₁fn, hd₁len⟩ :=
        procOffset_lookup_self_some nf U dim bf src dst fwd (o₀, pts₀) d₀ hl hfn₀
      dsimp only at hd₁len
      have hinv₁ : ∀ o d, alookup fwd₁ o = some d → d.funcName ≠ "" := by
        intro o d h
        by_cases he : o = o₀
        · subst he
          rw [hd₁look] at h
          exact Option.some_inj.mp h ▸ hd₁fn
        · rw [hother o he] at h
          exact hinv o d h
      obtain ⟨ih1, ih2, ih3, ih4, ih5⟩ := ih fwd₁ hndr hinv₁
      rw [hfold]
      refine ⟨ih1, ?_, ?_, ?_, ?_⟩
      · intro hfwdnd
        exact ih2 (procOffset_nodup nf U dim bf src dst fwd (o₀, pts₀) hfwdnd)
      · intro o d h
        by_cases he : o = o₀
        · subst he
          rw [h] at hl
          obtain ⟨d', hl', hlen', hfn'⟩ := ih3 o d₁ hd₁look
          refine ⟨d', hl', ?_, hfn'⟩
          rw [hlen', hd₁len, hsize₀, sizeAt_cons, if_pos rfl,
            Option.some_inj.mp hl]
          omega
        · obtain ⟨d', hl', hlen', hfn'⟩ := ih3 o d (by rw [hother o he]; exact h)
          refine ⟨d', hl', ?_, hfn'⟩
          rw [hlen', sizeAt_cons, if_neg (fun hc => he (Eq.symm hc))]
      · intro o h hmem
        simp only [List.map_cons, List.mem_cons] at hmem
        push_neg at hmem
        refine ih4 o ?_ hmem.2
        rw [hother o hmem.1]
        exact h
      · intro o h hmem
        by_cases he : o = o₀
        · subst he
          rw [h] at hl
          cases hl
        · simp only [List.map_cons, List.mem_cons] at hmem
          rcases hmem with hc | hmem
          · exact absurd hc he
          · obtain ⟨d', hl', hlen', hfn'⟩ := ih5 o (by rw [hother o he]; exact h) hmem
            refine ⟨d', hl', ?_, hfn'⟩
            rw [hlen', sizeAt_cons, if_neg (fun hc => he (Eq.symm hc))]
    | none =>
      obtain ⟨d₁, hd₁look, hd₁fn, hd₁len⟩ :=
        procOffset_lookup_self_none nf U dim bf src dst fwd (o₀, pts₀) hl
      dsimp only at hd₁len
      have hinv₁ : ∀ o d, alookup fwd₁ o = some d → d.funcName ≠ "" := by
        intro o d h
        by_cases he : o = o₀
        · subst he
          rw [hd₁look] at h
          exact Option.some_inj.mp h ▸ hd₁fn
        · rw [hother o he] at h
          exact hinv o d h
      obtain ⟨ih1, ih2, ih3, ih4, ih5⟩ := ih fwd₁ hndr hinv₁
      rw [hfold]
      refine ⟨ih1, ?_, ?_, ?_, ?_⟩
      · intro hfwdnd
        exact ih2 (procOffset_nodup nf U dim bf src dst fwd (o₀, pts₀) hfwdnd)
      · intro o d h
        by_cases he : o = o₀
        · subst he
          rw [h] at hl
          cases hl
        · obtain ⟨d', hl', hlen', hfn'⟩ := ih3 o d (by rw [hother o he]; exact h)
          refine ⟨d', hl', ?_, hfn'⟩
          rw [hlen', sizeAt_cons, if_neg (fun hc => he (Eq.symm hc))]
      · intro o h hmem
        simp only [List.map_cons, List.mem_cons] at hmem
        push_neg at hmem
        refine ih4 o ?_ hmem.2
        rw [hother o hmem.1]
        exact h
      · intro o h hmem
        by_cases he : o = o₀
        · subst he
          obtain ⟨d', hl', hlen', hfn'⟩ := ih3 o d₁ hd₁look
          refine ⟨d', hl', ?_, hfn'⟩
          rw [hlen', hd₁len, hsize₀, sizeAt_cons, if_pos rfl]
          omega
        · simp only [List.map_cons, List.mem_cons] at hmem
          rcases hmem with hc | hmem
          · exact absurd hc he
          · obtain ⟨d', hl', hlen', hfn'⟩ := ih5 o (by rw [hother o he]; exact h) hmem
            refine ⟨d', hl', ?_, hfn'⟩
            rw [hlen', sizeAt_cons, if_neg (fun hc => he (Eq.symm hc))]

theorem totalPoints_cons (dst₀ : String × List (Int × List (Nat × Nat)))
    (rest : List (String × List (Int × List (Nat × Nat)))) (o : Int) :
    totalPoints (dst₀ :: rest) o = sizeAt dst₀.2 o + totalPoints rest o := by
  simp [totalPoints]

theorem outer_fold (nf : List (Int × Int)) (U dim : Nat) (bf : Bool) (src : String) :
    ∀ (dsts : List (String × List (Int × List (Nat × Nat))))
      (fwd : List (Int × Forwarding)),
      (∀ dst ∈ dsts, (dst.2.map Prod.fst).Nodup) →
      (∀ o d, alookup fwd o = some d → d.funcName ≠ "") →
      (∀ o d, alookup (dsts.foldl
            (fun fwd dst => dst.2.foldl (procOffset nf U dim bf src dst.1) fwd) fwd) o
          = some d → d.funcName ≠ "")
      ∧ ((fwd.map Prod.fst).Nodup →
          ((dsts.foldl
            (fun fwd dst => dst.2.foldl (procOffset nf U dim bf src dst.1) fwd) fwd).map
              Prod.fst).Nodup)
      ∧ (∀ o d, alookup fwd o = some d →
          ∃ d', alookup (dsts.foldl
              (fun fwd dst => dst.2.foldl (procOffset nf U dim bf src dst.1) fwd) fwd) o
            = some d'
            ∧ d'.outputs.length = d.outputs.length + totalPoints dsts o
            ∧ d'.funcName ≠ "")
      ∧ (∀ o, alookup fwd o = none → (∀ dst ∈ dsts, o ∉ dst.2.map Prod.fst) →
          alookup (dsts.foldl
            (fun fwd dst => dst.2.foldl (procOffset nf U dim bf src dst.1) fwd) fwd) o
          = none)
      ∧ (∀ o, alookup fwd o = none → (∃ dst ∈ dsts, o ∈ dst.2.map Prod.fst) →
          ∃ d', alookup (dsts.foldl
              (fun fwd dst => dst.2.foldl (procOffset nf U dim bf src dst.1) fwd) fwd) o
            = some d'
            ∧ d'.outputs.length
                = totalPoints dsts o + (if (alookup nf o).isSome then 1 else 0)
            ∧ d'.funcName ≠ "") := by
  intro dsts
  induction dsts with
  | nil =>
    intro fwd _ hinv
    refine ⟨hinv, fun h => h, ?_, fun o h _ => h, ?_⟩
    · intro o d h
      exact ⟨d, h, by simp [totalPoints], hinv o d h⟩
    · intro o _ h
      simp at h
  | cons dst₀ rest ih =>
    intro fwd hkeys hinv
    set fwd₁ := dst₀.2.foldl (procOffset nf U dim bf src dst₀.1) fwd with hfwd₁
    have hkeys₀ : (dst₀.2.map Prod.fst).Nodup := hkeys dst₀ (List.mem_cons_self _ _)
    obtain ⟨in1, in2, in3, in4, in5⟩ :=
      inner_fold nf U dim bf src dst₀.1 dst₀.2 fwd hkeys₀ hinv
    obtain ⟨ih1, ih2, ih3, ih4, ih5⟩ := ih fwd₁
      (fun dst hd => hkeys dst (List.mem_cons_of_mem _ hd)) in1
    have hfold : ((dst₀ :: rest).foldl
          (fun fwd dst => dst.2.foldl (procOffset nf U dim bf src dst.1) fwd) fwd)
        = rest.foldl
            (fun fwd dst => dst.2.foldl (procOffset nf U dim bf src dst.1) fwd) fwd₁ := rfl
    rw [hfold]
    refine ⟨ih1, fun h => ih2 (in2 h), ?_, ?_, ?_⟩
    · intro o d h
      obtain ⟨d₁, hl₁, hlen₁, hfn₁⟩ := in3 o d h
      obtain ⟨d', hl', hlen', hfn'⟩ := ih3 o d₁ hl₁
      refine ⟨d', hl', ?_, hfn'⟩
      rw [hlen', hlen₁, totalPoints_cons]
      omega
    · intro o h hnot
      refine ih4 o ?_ (fun dst hd => hnot dst (List.mem_cons_of_mem _ hd))
      exact in4 o h (hnot dst₀ (List.mem_cons_self _ _))
    · intro o h hex
      by_cases hm₀ : o ∈ dst₀.2.map Prod.fst
      · obtain ⟨d₁, hl₁, hlen₁, hfn₁⟩ := in5 o h hm₀
        obtain ⟨d', hl', hlen', hfn'⟩ := ih3 o d₁ hl₁
        refine ⟨d', hl', ?_, hfn'⟩
        rw [hlen', hlen₁, totalPoints_cons]
        omega
      · obtain ⟨dst, hdst, hmem⟩ := hex
        have hdst' : dst ∈ rest := by
          rcases List.mem_cons.mp hdst with he | hm
          · exact absurd (he ▸ hmem) hm₀
          · exact hm
        obtain ⟨d', hl', hlen', hfn'⟩ := ih5 o (in4 o h hm₀) ⟨dst, hdst', hmem⟩
        refine ⟨d', hl', ?_, hfn'⟩
        rw [hlen', totalPoints_cons, sizeAt, alookup_eq_none_of_not_mem _ _ hm₀]
        simp

/-- Wellformedness of a point dictionary: outer offset keys and inner lane
keys are duplicate-free. -/
def PointsWF (m : List (Int × List (Nat × Nat))) : Prop :=
  (m.map Prod.fst).Nodup ∧ ∀ e ∈ m, (e.2.map Prod.fst).Nodup

theorem foldl_preserves {σ γ : Type} (P : σ → Prop) (f : σ → γ → σ)
    (hf : ∀ m x, P m → P (f m x)) :
    ∀ (l : List γ) (m : σ), P m → P (l.foldl f m) := by
  intro l
  induction l with
  | nil => intro m h; exact h
  | cons x t ih => intro m h; exact ih (f m x) (hf m x h)

theorem addPoint_wf (m : List (Int × List (Nat × Nat))) (off : Int) (lane rank : Nat)
    (h : PointsWF m) : PointsWF (addPoint m off lane rank) := by
  obtain ⟨h1, h2⟩ := h
  have hinner : (((alookup m off).getD []).map Prod.fst).Nodup := by
    cases hl : alookup m off with
    | none => simp
    | some inner =>
      have := h2 (off, inner) (alookup_mem _ _ _ hl)
      simpa using this
  constructor
  · exact nodup_keys_dictInsert _ _ _ h1
  · intro e he
    rcases mem_dictInsert _ _ _ e (by exact he) with he' | he'
    · rw [he']
      exact nodup_keys_dictInsert _ _ _ hinner
    · exact h2 e he'

theorem pointsFor_wf (tile : List Int) (s : ChainStage) (U : Nat) :
    PointsWF (pointsFor tile s U) := by
  unfold pointsFor
  refine foldl_preserves PointsWF _ ?_ _ _ ⟨List.nodup_nil, by simp⟩
  intro m u hm
  exact foldl_preserves PointsWF _ (fun m' p hp => addPoint_wf m' _ _ _ hp) _ m hm

/-- C7: every tap offset that appears in `all_points` has exactly one
forwarding descriptor (the descriptor map has duplicate-free keys and the
lookup succeeds), and its output-port count is the number of distinct
`(stage, lane)` pairs reading that tap plus one when the tap has a
`next_fifo` successor. -/
theorem forwarding_completeness (tile : List Int) (b : RTensor) (U dim : Nat) (bf : Bool)
    (offset : Int)
    (hoff : ∃ dst ∈ GetPoints tile b U, (alookup dst.2 offset).isSome) :
    ((GetForwardings tile b U dim bf).map Prod.fst).Nodup
    ∧ (∀ dst ∈ GetPoints tile b U, PointsWF dst.2)
    ∧ ∃ d, alookup (GetForwardings tile b U dim bf) offset = some d
        ∧ d.outputs.length
            = totalPoints (GetPoints tile b U) offset
              + (if (alookup (nextFifoOf tile b U) offset).isSome then 1 else 0) := by
  have hwf : ∀ dst ∈ GetPoints tile b U, PointsWF dst.2 := by
    intro dst hd
    obtain ⟨s, _, he⟩ := List.mem_map.mp hd
    rw [← he]
    exact pointsFor_wf tile s U
  obtain ⟨_, out2, _, _, out5⟩ := outer_fold (nextFifoOf tile b U) U dim bf b.name
    (GetPoints tile b U) [] (fun dst hd => (hwf dst hd).1) (fun o d h => by simp [alookup] at h)
  obtain ⟨dst, hdst, hsome⟩ := hoff
  refine ⟨out2 (by simp), hwf, ?_⟩
  obtain ⟨d', hl', hlen', _⟩ := out5 offset rfl
    ⟨dst, hdst, alookup_isSome_mem _ _ hsome⟩
  exact ⟨d', hl', hlen'⟩

def bC7 : RTensor := ⟨"b", [⟨"s", [[0], [1]], 0⟩]⟩

/-- Witness for `forwarding_completeness` at the concrete tensor `bC7`. -/
theorem forwarding_completeness_witness :
    (alookup (GetForwardings [5] bC7 1 1 false) 0).isSome
    ∧ ((GetForwardings [5] bC7 1 1 false).map Prod.fst).Nodup := by
  obtain ⟨hnodup, _, d, hl, _⟩ :=
    forwarding_completeness [5] bC7 1 1 false 0 (by decide)
  exact ⟨by rw [hl]; rfl, hnodup⟩
